import Mathlib

/-!
Shallow embedding of the PULPino port of the CMSIS-DSP fixed-point kernel
library (vector conversion/element-wise kernels, Q15 convolution, Q15 real
and complex matrix multiplication), together with proofs of the numeric
contracts of those kernels.

Machine integers are modelled as unbounded `Int` with explicit
two's-complement wrapping (`wrapW`) at the points where the C code performs
a narrowing conversion or works in a fixed-width accumulator.  Buffers are
`List Int` (or `List Float` for the f32 kernel); a store `*p++ = v` becomes
`List.set`; loads of typed `q15_t`/`q7_t` cells are `List.getD` with the
value-range preconditions carried as hypotheses where they matter.
The `USE_DSP_RISCV` compile-time switch and the `RISCV_MATH_MATRIX_CHECK`
switch are Boolean parameters of the embedded functions.
-/

/-- Two's-complement wrap of an integer into a signed `w`-bit container
(the effect of a C narrowing conversion, e.g. `(q15_t)x` is `wrapW 16 x`). -/
def wrapW (w : Nat) (x : Int) : Int := (x + 2 ^ (w - 1)) % 2 ^ w - 2 ^ (w - 1)

/-- Modelled from the spec (§4.1 saturation): `__SSAT(x, 16)` from the
missing header `riscv_math.h` clamps to the 16-bit range `[-32768, 32767]`. -/
def ssat16 (x : Int) : Int := if 32767 < x then 32767 else if x < -32768 then -32768 else x

/-- Modelled from the spec (§4.1 saturation): `clip(x, lo, hi)` from the
missing header `riscv_math.h` clamps `x` into `[lo, hi]`. -/
def clip (x lo hi : Int) : Int := if x < lo then lo else if hi < x then hi else x

/-- Modelled from the spec (§4.1 packed-lane operations): `dotpv2` from the
missing header `riscv_math.h` is the fused 2-lane dot product
`x0*y0 + x1*y1`; per §4.1 the packed path must be bit-identical to the
scalar computation, so it is modelled as the exact integer dot product. -/
def dotpv2 (x0 x1 y0 y1 : Int) : Int := x0 * y0 + x1 * y1

/-- Modelled from the spec (§4.1/§4.4 fast narrow accumulator): `mac(a,b,acc)`
from the missing header `riscv_math.h` is a 32-bit multiply-accumulate; the
32-bit accumulator wraps on overflow. -/
def mac (a b acc : Int) : Int := wrapW 32 (acc + a * b)

/-- Modelled from the spec (§4.1 packed-lane operations): `sumdotpv2` from
the missing header `riscv_math.h` is the fused 2-lane dot-product-accumulate
into a 32-bit accumulator, wrapping on overflow. -/
def sumdotpv2 (x0 x1 y0 y1 acc : Int) : Int := wrapW 32 (acc + x0 * y0 + x1 * y1)

/-- Modelled from the spec (§4.1): the `p.abs` packed/scalar absolute-value
instruction used by `riscv_abs_q31` (inline assembly in the source); it is
only reached on the non-minimum branch, where it is the ordinary absolute
value. -/
def pabs (x : Int) : Int := |x|

/-! ### Small `List.getD` helper lemmas -/

theorem getD_set_eq (l : List Int) (i : Nat) (v d : Int) (h : i < l.length) :
    (l.set i v).getD i d = v := by
  simp [List.getD, List.getElem?_set, h]

theorem getD_set_ne (l : List Int) (i n : Nat) (v d : Int) (h : i ≠ n) :
    (l.set i v).getD n d = l.getD n d := by
  simp [List.getD, List.getElem?_set, h]

theorem getD_eq_default_of_le (l : List Int) (n : Nat) (d : Int) (h : l.length ≤ n) :
    l.getD n d = d := by
  simp [List.getD, List.getElem?_eq_none h]

/-! ### `riscv_q15_to_q7` (src/sw/libs/CMSIS_lib/src/SupportFunctions/riscv_q15_to_q7.c)

Scalar loop: `*pDst++ = (q7_t) (*pIn++ >> 8);`.
DSP loop (USE_DSP_RISCV): two lanes per iteration via `sra2`, advancing
`pSrc`; the scalar tail after it still reads through `pIn`, which was
initialized to `pSrc` before the DSP loop and never advanced. -/

def q15_to_q7_loop (src dst : List Int) (pIn pDst cnt : Nat) : List Int :=
  match cnt with
  | 0 => dst
  | n + 1 =>
      q15_to_q7_loop src (dst.set pDst (wrapW 8 (src.getD pIn 0 >>> 8))) (pIn + 1) (pDst + 1) n

def q15_to_q7_dsp (src dst : List Int) (pSrc pDst cnt : Nat) : List Int :=
  match cnt with
  | 0 => dst
  | n + 1 =>
      let d1 := dst.set pDst (wrapW 8 (src.getD pSrc 0 >>> 8))
      let d2 := d1.set (pDst + 1) (wrapW 8 (src.getD (pSrc + 1) 0 >>> 8))
      q15_to_q7_dsp src d2 (pSrc + 2) (pDst + 2) n

def riscv_q15_to_q7 (dsp : Bool) (src dst : List Int) (blockSize : Nat) : List Int :=
  if dsp then
    let d1 := q15_to_q7_dsp src dst 0 0 (blockSize / 2)
    -- tail: `pIn` is still the start of `src` (it was never advanced): faithful to the source
    q15_to_q7_loop src d1 0 (2 * (blockSize / 2)) (blockSize % 2)
  else
    q15_to_q7_loop src dst 0 0 blockSize

/-! ### `riscv_q7_to_q15` (src/unnamed/part_001, arm_q7_to_q15.c)

Only the scalar loop is live (the DSP variant is commented out in the
source): `*pDst++ = (q15_t) * pIn++ << 8;`. -/

def q7_to_q15_loop (src dst : List Int) (pIn pDst cnt : Nat) : List Int :=
  match cnt with
  | 0 => dst
  | n + 1 =>
      q7_to_q15_loop src (dst.set pDst (wrapW 16 (src.getD pIn 0 * 2 ^ 8))) (pIn + 1) (pDst + 1) n

def riscv_q7_to_q15 (src dst : List Int) (blockSize : Nat) : List Int :=
  q7_to_q15_loop src dst 0 0 blockSize

/-! ### `riscv_fill_q7` (src/unnamed/part_002, arm_fill_q7.c) -/

def fill_q7_dsp (value : Int) (dst : List Int) (pDst cnt : Nat) : List Int :=
  match cnt with
  | 0 => dst
  | n + 1 =>
      let d := (((dst.set pDst value).set (pDst + 1) value).set (pDst + 2) value).set
        (pDst + 3) value
      fill_q7_dsp value d (pDst + 4) n

def fill_q7_loop (value : Int) (dst : List Int) (pDst cnt : Nat) : List Int :=
  match cnt with
  | 0 => dst
  | n + 1 => fill_q7_loop value (dst.set pDst value) (pDst + 1) n

def riscv_fill_q7 (dsp : Bool) (value : Int) (dst : List Int) (blockSize : Nat) : List Int :=
  if dsp then
    fill_q7_loop value (fill_q7_dsp value dst 0 (blockSize / 4)) (4 * (blockSize / 4))
      (blockSize % 4)
  else
    fill_q7_loop value dst 0 blockSize

/-! ### `riscv_mult_f32` (src/sw/libs/CMSIS_lib/src/BasicMathFunctions/riscv_mult_f32.c) -/

def mult_f32_loop (srcA srcB dst : List Float) (p cnt : Nat) : List Float :=
  match cnt with
  | 0 => dst
  | n + 1 => mult_f32_loop srcA srcB (dst.set p (srcA.getD p 0 * srcB.getD p 0)) (p + 1) n

def riscv_mult_f32 (srcA srcB dst : List Float) (blockSize : Nat) : List Float :=
  mult_f32_loop srcA srcB dst 0 blockSize

/-! ### `riscv_offset_q15` (src/sw/libs/CMSIS_lib/src/BasicMathFunctions/riscv_offset_q15.c) -/

def offset_q15_dsp (src : List Int) (offset : Int) (dst : List Int) (p cnt : Nat) : List Int :=
  match cnt with
  | 0 => dst
  | n + 1 =>
      let inA1 := src.getD p 0
      let inA2 := src.getD (p + 1) 0
      let d1 := dst.set p (clip (inA1 + offset) (-32768) 32767)
      let d2 := d1.set (p + 1) (clip (inA2 + offset) (-32768) 32767)
      offset_q15_dsp src offset d2 (p + 2) n

def offset_q15_dsp_tail (src : List Int) (offset : Int) (dst : List Int) (p cnt : Nat) :
    List Int :=
  match cnt with
  | 0 => dst
  | n + 1 =>
      offset_q15_dsp_tail src offset (dst.set p (clip (src.getD p 0 + offset) (-32768) 32767))
        (p + 1) n

def offset_q15_loop (src : List Int) (offset : Int) (dst : List Int) (p cnt : Nat) : List Int :=
  match cnt with
  | 0 => dst
  | n + 1 =>
      offset_q15_loop src offset (dst.set p (ssat16 (src.getD p 0 + offset))) (p + 1) n

def riscv_offset_q15 (dsp : Bool) (src : List Int) (offset : Int) (dst : List Int)
    (blockSize : Nat) : List Int :=
  if dsp then
    offset_q15_dsp_tail src offset (offset_q15_dsp src offset dst 0 (blockSize / 2))
      (2 * (blockSize / 2)) (blockSize % 2)
  else
    offset_q15_loop src offset dst 0 blockSize

/-! ### `riscv_abs_q31` (src/unnamed/part_003, arm_abs_q31.c) -/

def abs_q31_dsp (src dst : List Int) (p cnt : Nat) : List Int :=
  match cnt with
  | 0 => dst
  | n + 1 =>
      let a := src.getD p 0
      let out := if a = -2147483648 then 2147483647 else pabs a
      abs_q31_dsp src (dst.set p out) (p + 1) n

def abs_q31_loop (src dst : List Int) (p cnt : Nat) : List Int :=
  match cnt with
  | 0 => dst
  | n + 1 =>
      let a := src.getD p 0
      let out := if 0 < a then a else if a = -2147483648 then 2147483647 else -a
      abs_q31_loop src (dst.set p out) (p + 1) n

def riscv_abs_q31 (dsp : Bool) (src dst : List Int) (blockSize : Nat) : List Int :=
  if dsp then abs_q31_dsp src dst 0 blockSize else abs_q31_loop src dst 0 blockSize

/-! ### Loop characterization lemmas for `riscv_abs_q31` -/

theorem abs_q31_loop_getD_lt (src : List Int) (cnt : Nat) :
    ∀ (dst : List Int) (p m : Nat), m < p →
      (abs_q31_loop src dst p cnt).getD m 0 = dst.getD m 0 := by
  induction cnt with
  | zero => intro dst p m _; rfl
  | succ n ih =>
      intro dst p m hm
      simp only [abs_q31_loop]
      rw [ih _ (p + 1) m (by omega)]
      exact getD_set_ne _ _ _ _ _ (by omega)

theorem abs_q31_loop_getD (src : List Int) (cnt : Nat) :
    ∀ (dst : List Int) (p k : Nat), k < cnt → p + k < dst.length →
      (abs_q31_loop src dst p cnt).getD (p + k) 0 =
        (if 0 < src.getD (p + k) 0 then src.getD (p + k) 0
          else if src.getD (p + k) 0 = -2147483648 then 2147483647
          else -src.getD (p + k) 0) := by
  induction cnt with
  | zero => intro dst p k hk _; omega
  | succ n ih =>
      intro dst p k hk hlen
      simp only [abs_q31_loop]
      cases k with
      | zero =>
          rw [abs_q31_loop_getD_lt src n _ (p + 1) (p + 0) (by omega)]
          simpa using getD_set_eq dst p _ 0 (by omega)
      | succ j =>
          have hidx : p + (j + 1) = (p + 1) + j := by omega
          rw [hidx]
          exact ih _ (p + 1) j (by omega) (by simpa using by omega)

theorem abs_q31_dsp_getD_lt (src : List Int) (cnt : Nat) :
    ∀ (dst : List Int) (p m : Nat), m < p →
      (abs_q31_dsp src dst p cnt).getD m 0 = dst.getD m 0 := by
  induction cnt with
  | zero => intro dst p m _; rfl
  | succ n ih =>
      intro dst p m hm
      simp only [abs_q31_dsp]
      rw [ih _ (p + 1) m (by omega)]
      exact getD_set_ne _ _ _ _ _ (by omega)

theorem abs_q31_dsp_getD (src : List Int) (cnt : Nat) :
    ∀ (dst : List Int) (p k : Nat), k < cnt → p + k < dst.length →
      (abs_q31_dsp src dst p cnt).getD (p + k) 0 =
        (if src.getD (p + k) 0 = -2147483648 then 2147483647
          else pabs (src.getD (p + k) 0)) := by
  induction cnt with
  | zero => intro dst p k hk _; omega
  | succ n ih =>
      intro dst p k hk hlen
      simp only [abs_q31_dsp]
      cases k with
      | zero =>
          rw [abs_q31_dsp_getD_lt src n _ (p + 1) (p + 0) (by omega)]
          simpa using getD_set_eq dst p _ 0 (by omega)
      | succ j =>
          have hidx : p + (j + 1) = (p + 1) + j := by omega
          rw [hidx]
          exact ih _ (p + 1) j (by omega) (by simpa using by omega)

theorem scalar_abs_branch_eq (a : Int) :
    (if 0 < a then a else if a = -2147483648 then 2147483647 else -a) =
      (if a = -2147483648 then 2147483647 else |a|) := by
  by_cases hmin : a = -2147483648
  · subst hmin; norm_num
  · by_cases hpos : 0 < a
    · rw [if_pos hpos, if_neg hmin, abs_of_pos hpos]
    · rw [if_neg hpos, if_neg hmin, if_neg hmin, abs_of_nonpos (le_of_not_lt hpos)]

/-- Claim C9: `riscv_abs_q31` maps the minimum representable value
`-2^31` to `2^31 - 1` (saturation, not wraparound) and every other element
to its ordinary absolute value, on both the scalar and DSP code paths;
every output element it writes is nonnegative. -/
theorem riscv_abs_q31_spec (dsp : Bool) (src dst : List Int) (blockSize : Nat)
    (hlen : blockSize ≤ dst.length) (n : Nat) (hn : n < blockSize) :
    (riscv_abs_q31 dsp src dst blockSize).getD n 0 =
      (if src.getD n 0 = -2147483648 then 2147483647 else |src.getD n 0|) ∧
    0 ≤ (riscv_abs_q31 dsp src dst blockSize).getD n 0 := by
  have hn' : (0 : Nat) + n < dst.length := by omega
  have hmain :
      (riscv_abs_q31 dsp src dst blockSize).getD n 0 =
        (if src.getD n 0 = -2147483648 then 2147483647 else |src.getD n 0|) := by
    cases dsp with
    | false =>
        have h := abs_q31_loop_getD src blockSize dst 0 n hn hn'
        rw [Nat.zero_add] at h
        rw [riscv_abs_q31]
        simp only [Bool.false_eq_true, if_false]
        rw [h, scalar_abs_branch_eq]
    | true =>
        have h := abs_q31_dsp_getD src blockSize dst 0 n hn hn'
        rw [Nat.zero_add] at h
        rw [riscv_abs_q31]
        simp only [if_true]
        rw [h]
        rfl
  refine ⟨hmain, ?_⟩
  rw [hmain]
  split
  · norm_num
  · exact abs_nonneg _

/-- Witness for C9 at a concrete input containing the minimum Q31 value. -/
theorem riscv_abs_q31_spec_witness :
    (riscv_abs_q31 true [5, -7, -2147483648] [0, 0, 0] 3).getD 2 0 =
      (if ([5, -7, -2147483648] : List Int).getD 2 0 = -2147483648 then 2147483647
        else |([5, -7, -2147483648] : List Int).getD 2 0|) ∧
    0 ≤ (riscv_abs_q31 true [5, -7, -2147483648] [0, 0, 0] 3).getD 2 0 :=
  riscv_abs_q31_spec true [5, -7, -2147483648] [0, 0, 0] 3 (by decide) 2 (by decide)

/-- Claim C10: a call with `blockSize == 0` performs no stores at all for
`riscv_mult_f32`, `riscv_offset_q15`, `riscv_fill_q7` and `riscv_q15_to_q7`:
the destination buffer is returned completely unchanged, on both the scalar
and the DSP code path. -/
theorem blockSize_zero_no_store (dsp : Bool) (srcI dstI : List Int) (off value : Int)
    (srcA srcB dstF : List Float) :
    riscv_mult_f32 srcA srcB dstF 0 = dstF ∧
    riscv_offset_q15 dsp srcI off dstI 0 = dstI ∧
    riscv_fill_q7 dsp value dstI 0 = dstI ∧
    riscv_q15_to_q7 dsp srcI dstI 0 = dstI := by
  cases dsp <;>
    simp [riscv_mult_f32, mult_f32_loop, riscv_offset_q15, offset_q15_loop,
      offset_q15_dsp, offset_q15_dsp_tail, riscv_fill_q7, fill_q7_loop, fill_q7_dsp,
      riscv_q15_to_q7, q15_to_q7_loop, q15_to_q7_dsp]

/-- Claim C7 (code bug): with `USE_DSP_RISCV` and an odd `blockSize`, the
scalar tail of `riscv_q15_to_q7` reads through `pIn`, which was never
advanced past the start of the source buffer, so the last output receives
`src[0] >> 8` instead of `src[blockSize-1] >> 8`.  At `src = [0, 0, 256]`,
`blockSize = 3`, the DSP path stores `0` at index 2 while the documented
mapping `dst[n] = src[n] >> 8` requires `256 >> 8 = 1` (as the scalar path
computes). -/
theorem riscv_q15_to_q7_dsp_tail_bug :
    (riscv_q15_to_q7 true [0, 0, 256] [0, 0, 0] 3).getD 2 0 = 0 ∧
    ([0, 0, 256] : List Int).getD 2 0 >>> 8 = 1 ∧
    (riscv_q15_to_q7 false [0, 0, 256] [0, 0, 0] 3).getD 2 0 = 1 := by decide

/-- Claim C6 (code bug): the scalar and DSP code paths of `riscv_q15_to_q7`
are not bit-identical: at `blockSize = 3`, `src = [256, 512, 768]` the DSP
path produces `[1, 2, 1]` and the scalar path `[1, 2, 3]`. -/
theorem riscv_q15_to_q7_paths_differ :
    riscv_q15_to_q7 true [256, 512, 768] [0, 0, 0] 3 = [1, 2, 1] ∧
    riscv_q15_to_q7 false [256, 512, 768] [0, 0, 0] 3 = [1, 2, 3] ∧
    riscv_q15_to_q7 true [256, 512, 768] [0, 0, 0] 3 ≠
      riscv_q15_to_q7 false [256, 512, 768] [0, 0, 0] 3 := by decide

/-- Claim C8 (code bug): the narrow-then-widen round trip fails on the DSP
path for odd `blockSize ≥ 3` because of the `pIn` bug in `riscv_q15_to_q7`:
`Q7_to_Q15(Q15_to_Q7([256, 512, 1024]))` with `blockSize = 3` yields
`[256, 512, 256]`, but `x AND 0xFF00` of the input is `[256, 512, 1024]`. -/
theorem q15_q7_roundtrip_bug :
    riscv_q7_to_q15 (riscv_q15_to_q7 true [256, 512, 1024] [0, 0, 0] 3) [0, 0, 0] 3 =
      [256, 512, 256] ∧
    ([256, 512, 1024] : List Int).map (fun x => x - x % 256) = [256, 512, 1024] ∧
    ([256, 512, 256] : List Int) ≠ [256, 512, 1024] := by decide

/-! ### Matrix data model (riscv_math.h `riscv_matrix_instance_q15`, `riscv_status`) -/

inductive riscv_status where
  | RISCV_MATH_SUCCESS : riscv_status
  | RISCV_MATH_SIZE_MISMATCH : riscv_status
deriving DecidableEq, Repr

structure riscv_matrix_instance_q15 where
  numRows : Nat
  numCols : Nat
  pData : List Int
deriving DecidableEq, Repr

/-- Sequential stores `*px++ = v` of a list of produced values starting at
offset `p` of the destination buffer. -/
def writeList (dst : List Int) (p : Nat) (vs : List Int) : List Int :=
  match vs with
  | [] => dst
  | v :: rest => writeList (dst.set p v) (p + 1) rest

/-! ### `riscv_mat_mult_fast_q15`
(src/sw/libs/CMSIS_lib/src/MatrixFunctions/riscv_mat_mult_fast_q15.c)

Stage 1 transposes `B` into the caller scratch buffer `pState`
(element `B[i][j]` is stored at `pSrcBT[i + j*numRowsB]`; the 4-way loop
unrolling of the source performs the same per-element copy).  Stage 2 walks
each row of `A` against each staged column with a 32-bit accumulator
(`sumdotpv2`/`mac` on the DSP path, plain wrapping `q31_t` adds on the
scalar path) and stores `(q15_t)(sum >> 15)` — a plain 16-bit truncation,
with no saturation. -/

def mat_trans_col (Bd bt : List Int) (pB px nRB c : Nat) : List Int :=
  match c with
  | 0 => bt
  | c + 1 => mat_trans_col Bd (bt.set px (Bd.getD pB 0)) (pB + 1) (px + nRB) nRB c

def mat_trans_row (Bd bt : List Int) (pB i nRB nCB r : Nat) : List Int :=
  match r with
  | 0 => bt
  | r + 1 => mat_trans_row Bd (mat_trans_col Bd bt pB i nRB nCB) (pB + nCB) (i + 1) nRB nCB r

def mat_fast_macs4 (dsp : Bool) (A BT : List Int) (pA pB cnt : Nat) (sum : Int) : Int :=
  match cnt with
  | 0 => sum
  | n + 1 =>
      if dsp then
        let s1 := sumdotpv2 (A.getD pA 0) (A.getD (pA + 1) 0)
          (BT.getD pB 0) (BT.getD (pB + 1) 0) sum
        let s2 := sumdotpv2 (A.getD (pA + 2) 0) (A.getD (pA + 3) 0)
          (BT.getD (pB + 2) 0) (BT.getD (pB + 3) 0) s1
        mat_fast_macs4 dsp A BT (pA + 4) (pB + 4) n s2
      else
        let s1 := wrapW 32 (sum + A.getD pA 0 * BT.getD pB 0)
        let s2 := wrapW 32 (s1 + A.getD (pA + 1) 0 * BT.getD (pB + 1) 0)
        let s3 := wrapW 32 (s2 + A.getD (pA + 2) 0 * BT.getD (pB + 2) 0)
        let s4 := wrapW 32 (s3 + A.getD (pA + 3) 0 * BT.getD (pB + 3) 0)
        mat_fast_macs4 dsp A BT (pA + 4) (pB + 4) n s4

def mat_fast_mac1 (dsp : Bool) (A BT : List Int) (pA pB cnt : Nat) (sum : Int) : Int :=
  match cnt with
  | 0 => sum
  | n + 1 =>
      mat_fast_mac1 dsp A BT (pA + 1) (pB + 1) n
        (if dsp then mac (A.getD pA 0) (BT.getD pB 0) sum
          else wrapW 32 (sum + A.getD pA 0 * BT.getD pB 0))

def mat_fast_cell (dsp : Bool) (A BT : List Int) (pA pB nColsA : Nat) : Int :=
  mat_fast_mac1 dsp A BT (pA + 4 * (nColsA / 4)) (pB + 4 * (nColsA / 4)) (nColsA % 4)
    (mat_fast_macs4 dsp A BT pA pB (nColsA / 4) 0)

def mat_fast_col (dsp : Bool) (A BT : List Int) (i pB nColsA col : Nat) : List Int :=
  match col with
  | 0 => []
  | c + 1 =>
      wrapW 16 (mat_fast_cell dsp A BT i pB nColsA >>> 15) ::
        mat_fast_col dsp A BT i (pB + nColsA) nColsA c

def mat_fast_rows (dsp : Bool) (A BT : List Int) (nColsA nColsB i row : Nat) : List Int :=
  match row with
  | 0 => []
  | r + 1 =>
      mat_fast_col dsp A BT i 0 nColsA nColsB ++
        mat_fast_rows dsp A BT nColsA nColsB (i + nColsA) r

def riscv_mat_mult_fast_q15 (check dsp : Bool) (pSrcA pSrcB pDst : riscv_matrix_instance_q15)
    (pState : List Int) : riscv_status × List Int :=
  if check ∧ (pSrcA.numCols ≠ pSrcB.numRows ∨ pSrcA.numRows ≠ pDst.numRows ∨
      pSrcB.numCols ≠ pDst.numCols) then
    (riscv_status.RISCV_MATH_SIZE_MISMATCH, pDst.pData)
  else
    let pSrcBT := mat_trans_row pSrcB.pData pState 0 0 pSrcB.numRows pSrcB.numCols
      pSrcB.numRows
    (riscv_status.RISCV_MATH_SUCCESS,
      writeList pDst.pData 0
        (mat_fast_rows dsp pSrcA.pData pSrcBT pSrcA.numCols pSrcB.numCols 0 pSrcA.numRows))

/-! ### `riscv_mat_cmplx_mult_q15`
(src/sw/libs/CMSIS_lib/src/MatrixFunctions/riscv_mat_cmplx_mult_q15.c)

Cells are interleaved `(real, imag)` pairs.  Stage 1 transposes `B`
pair-wise into the scratch buffer.  Stage 2 accumulates `sumReal`/`sumImag`
in 64-bit; the scalar path does the four multiplies
`sumReal += a*c; sumImag += a*d; sumReal -= b*d; sumImag += b*c`, the DSP
path stores `-b` into a 16-bit lane (wrapping at `b = -32768`) and uses
2-lane dot products; each cell is shifted and clamped once at the store. -/

def cmplx_trans_col (Bd bt : List Int) (pB px nRB c : Nat) : List Int :=
  match c with
  | 0 => bt
  | c + 1 =>
      cmplx_trans_col Bd ((bt.set px (Bd.getD pB 0)).set (px + 1) (Bd.getD (pB + 1) 0))
        (pB + 2) (px + 2 * nRB) nRB c

def cmplx_trans_row (Bd bt : List Int) (pB i nRB nCB r : Nat) : List Int :=
  match r with
  | 0 => bt
  | r + 1 =>
      cmplx_trans_row Bd (cmplx_trans_col Bd bt pB i nRB nCB) (pB + 2 * nCB) (i + 2) nRB nCB r

/-- One complex multiply-accumulate of the inner loop body: reads the pair
`(a, b)` from `A` and `(c, d)` from the staged `B`, and updates
`(sumReal, sumImag)` on the selected code path. -/
def cmplx_mac (dsp : Bool) (a b c d sR sI : Int) : Int × Int :=
  if dsp then
    (sR + dotpv2 a (wrapW 16 (-b)) c d, sI + dotpv2 a b d c)
  else
    (sR + a * c - b * d, sI + a * d + b * c)

def cmplx_mac_loop (dsp : Bool) (A BT : List Int) (pA pB cnt : Nat) (sR sI : Int) :
    Int × Int :=
  match cnt with
  | 0 => (sR, sI)
  | n + 1 =>
      let m1 := cmplx_mac dsp (A.getD pA 0) (A.getD (pA + 1) 0)
        (BT.getD pB 0) (BT.getD (pB + 1) 0) sR sI
      let m2 := cmplx_mac dsp (A.getD (pA + 2) 0) (A.getD (pA + 3) 0)
        (BT.getD (pB + 2) 0) (BT.getD (pB + 3) 0) m1.1 m1.2
      cmplx_mac_loop dsp A BT (pA + 4) (pB + 4) n m2.1 m2.2

def cmplx_cell (dsp : Bool) (A BT : List Int) (pA pB nColsA : Nat) : Int × Int :=
  let s := cmplx_mac_loop dsp A BT pA pB (nColsA / 2) 0 0
  if nColsA % 2 = 1 then
    cmplx_mac dsp (A.getD (pA + 4 * (nColsA / 2)) 0) (A.getD (pA + 4 * (nColsA / 2) + 1) 0)
      (BT.getD (pB + 4 * (nColsA / 2)) 0) (BT.getD (pB + 4 * (nColsA / 2) + 1) 0) s.1 s.2
  else s

def cmplx_col (dsp : Bool) (A BT : List Int) (pA pB nColsA col : Nat) : List Int :=
  match col with
  | 0 => []
  | c + 1 =>
      let s := cmplx_cell dsp A BT pA pB nColsA
      (if dsp then clip (s.1 >>> 15) (-32768) 32767 else ssat16 (s.1 >>> 15)) ::
        (if dsp then clip (s.2 >>> 15) (-32768) 32767 else ssat16 (s.2 >>> 15)) ::
        cmplx_col dsp A BT pA (pB + 2 * nColsA) nColsA c

def cmplx_rows (dsp : Bool) (A BT : List Int) (nColsA nColsB i row : Nat) : List Int :=
  match row with
  | 0 => []
  | r + 1 =>
      cmplx_col dsp A BT (2 * i) 0 nColsA nColsB ++
        cmplx_rows dsp A BT nColsA nColsB (i + nColsA) r

def riscv_mat_cmplx_mult_q15 (check dsp : Bool) (pSrcA pSrcB pDst : riscv_matrix_instance_q15)
    (pScratch : List Int) : riscv_status × List Int :=
  if check ∧ (pSrcA.numCols ≠ pSrcB.numRows ∨ pSrcA.numRows ≠ pDst.numRows ∨
      pSrcB.numCols ≠ pDst.numCols) then
    (riscv_status.RISCV_MATH_SIZE_MISMATCH, pDst.pData)
  else
    let pSrcBT := cmplx_trans_row pSrcB.pData pScratch 0 0 pSrcB.numRows pSrcB.numCols
      pSrcB.numRows
    (riscv_status.RISCV_MATH_SUCCESS,
      writeList pDst.pData 0
        (cmplx_rows dsp pSrcA.pData pSrcBT pSrcA.numCols pSrcB.numCols 0 pSrcA.numRows))

/-- Claim C3: with the dimension check compiled in (`RISCV_MATH_MATRIX_CHECK`,
the first Boolean parameter), any call of `riscv_mat_mult_fast_q15` or
`riscv_mat_cmplx_mult_q15` whose operand/destination dimensions are
incompatible returns `RISCV_MATH_SIZE_MISMATCH` and leaves the destination
data array completely unchanged, on both code paths. -/
theorem mat_mult_size_mismatch (dsp : Bool) (A B dst : riscv_matrix_instance_q15)
    (pState : List Int)
    (h : A.numCols ≠ B.numRows ∨ A.numRows ≠ dst.numRows ∨ B.numCols ≠ dst.numCols) :
    riscv_mat_mult_fast_q15 true dsp A B dst pState =
      (riscv_status.RISCV_MATH_SIZE_MISMATCH, dst.pData) ∧
    riscv_mat_cmplx_mult_q15 true dsp A B dst pState =
      (riscv_status.RISCV_MATH_SIZE_MISMATCH, dst.pData) := by
  constructor
  · rw [riscv_mat_mult_fast_q15, if_pos ⟨rfl, h⟩]
  · rw [riscv_mat_cmplx_mult_q15, if_pos ⟨rfl, h⟩]

/-- Witness for C3: a 1×2 by 1×1 multiplication attempt (`A.cols = 2`,
`B.rows = 1`) fails and leaves the destination data `[7]` untouched. -/
theorem mat_mult_size_mismatch_witness :
    riscv_mat_mult_fast_q15 true false ⟨1, 2, [1, 2]⟩ ⟨1, 1, [3]⟩ ⟨1, 1, [7]⟩ [0] =
      (riscv_status.RISCV_MATH_SIZE_MISMATCH, [7]) ∧
    riscv_mat_cmplx_mult_q15 true false ⟨1, 2, [1, 2]⟩ ⟨1, 1, [3]⟩ ⟨1, 1, [7]⟩ [0] =
      (riscv_status.RISCV_MATH_SIZE_MISMATCH, [7]) :=
  mat_mult_size_mismatch false ⟨1, 2, [1, 2]⟩ ⟨1, 1, [3]⟩ ⟨1, 1, [7]⟩ [0]
    (Or.inl (by decide))

/-- Counterexample to C2 as stated: multiplying the 1×2 row `[32767, 32767]`
by the 2×1 column `[32767, 32767]` accumulates `2*32767^2 = 2147352578` in
32 bits (no overflow), but the store `(q15_t)(sum >> 15)` truncates
`65532` to `-4` instead of saturating it to `32767`. -/
theorem mat_mult_fast_no_saturation :
    riscv_mat_mult_fast_q15 true false ⟨1, 2, [32767, 32767]⟩ ⟨2, 1, [32767, 32767]⟩
        ⟨1, 1, [0]⟩ [0, 0] =
      (riscv_status.RISCV_MATH_SUCCESS, [-4]) ∧
    ssat16 ((32767 * 32767 + 32767 * 32767 : Int) >>> 15) = 32767 ∧
    ((-4 : Int) ≠ 32767) := by
  refine ⟨by decide, by decide, by decide⟩

/-- Counterexample to C4 as stated: on the DSP path the negated-imaginary
trick stores `-(-32768)` into a 16-bit lane, which wraps back to `-32768`;
for the 1×1 product `(0 - 32768i) * (0 + 1i)` the code stores real part
`-1` while the claimed formula gives `SSAT((0*0 - (-32768)*1) >> 15, 16)
= 1` (which is what the scalar path computes). -/
theorem mat_cmplx_mult_dsp_wrap :
    riscv_mat_cmplx_mult_q15 true true ⟨1, 1, [0, -32768]⟩ ⟨1, 1, [0, 1]⟩
        ⟨1, 1, [0, 0]⟩ [0, 0] =
      (riscv_status.RISCV_MATH_SUCCESS, [-1, 0]) ∧
    ssat16 ((0 * 0 - (-32768 : Int) * 1) >>> 15) = 1 ∧
    riscv_mat_cmplx_mult_q15 true false ⟨1, 1, [0, -32768]⟩ ⟨1, 1, [0, 1]⟩
        ⟨1, 1, [0, 0]⟩ [0, 0] =
      (riscv_status.RISCV_MATH_SUCCESS, [1, 0]) := by
  refine ⟨by decide, by decide, by decide⟩

/-! ### Dot-product sums and wrapping-accumulator algebra -/

/-- `dotS s r p q cnt = Σ_{j<cnt} s[p+j]*r[q+j]` (zero-padded reads), the
abstract value of a unit-stride dot product. -/
def dotS (s r : List Int) (p q cnt : Nat) : Int :=
  match cnt with
  | 0 => 0
  | n + 1 => dotS s r p q n + s.getD (p + n) 0 * r.getD (q + n) 0

theorem dotS_add (s r : List Int) (p q m : Nat) :
    ∀ k, dotS s r p q (m + k) = dotS s r p q m + dotS s r (p + m) (q + m) k := by
  intro k
  induction k with
  | zero => simp [dotS]
  | succ n ih =>
      show dotS s r p q (m + n + 1) = _
      simp only [dotS, ih, Nat.add_assoc]
      ring

theorem dotS_eq_sum (s r : List Int) (p q : Nat) :
    ∀ cnt, dotS s r p q cnt = ∑ j ∈ Finset.range cnt, s.getD (p + j) 0 * r.getD (q + j) 0 := by
  intro cnt
  induction cnt with
  | zero => simp [dotS]
  | succ n ih => rw [Finset.sum_range_succ, ← ih]; rfl

theorem wrapW_wrapW_add (w : Nat) (x y : Int) : wrapW w (wrapW w x + y) = wrapW w (x + y) := by
  unfold wrapW
  congr 1
  rw [show (x + 2 ^ (w - 1)) % 2 ^ w - 2 ^ (w - 1) + y + 2 ^ (w - 1) =
      (x + 2 ^ (w - 1)) % 2 ^ w + y from by ring, Int.emod_add_emod]
  congr 1
  ring

/-! ### `writeList` lemmas -/

theorem writeList_length (vs : List Int) :
    ∀ dst p, (writeList dst p vs).length = dst.length := by
  induction vs with
  | nil => intro dst p; rfl
  | cons v rest ih => intro dst p; rw [writeList, ih]; exact List.length_set dst p v

theorem writeList_getD_lt (vs : List Int) :
    ∀ (dst : List Int) (p m : Nat), m < p →
      (writeList dst p vs).getD m 0 = dst.getD m 0 := by
  induction vs with
  | nil => intro dst p m _; rfl
  | cons v rest ih =>
      intro dst p m hm
      rw [writeList, ih _ (p + 1) m (by omega)]
      exact getD_set_ne _ _ _ _ _ (by omega)

theorem writeList_getD (vs : List Int) :
    ∀ (dst : List Int) (p k : Nat), k < vs.length → p + k < dst.length →
      (writeList dst p vs).getD (p + k) 0 = vs.getD k 0 := by
  induction vs with
  | nil => intro dst p k hk _; simp at hk
  | cons v rest ih =>
      intro dst p k hk hlen
      rw [writeList]
      cases k with
      | zero =>
          rw [writeList_getD_lt rest _ (p + 1) (p + 0) (by omega)]
          simpa using getD_set_eq dst p v 0 (by omega)
      | succ j =>
          rw [show p + (j + 1) = (p + 1) + j from by omega]
          exact ih _ (p + 1) j (by simpa using hk) (by simpa using by omega)

/-! ### Index-arithmetic helpers for the transpose staging -/

theorem idx_distinct (a j j' w : Nat) (h1 : 1 ≤ a) (h2 : a < w) : a + j' * w ≠ j * w := by
  intro he
  rcases Nat.lt_or_ge j' j with h | h
  · have hmul : (j' + 1) * w ≤ j * w := Nat.mul_le_mul_right w h
    rw [Nat.succ_mul] at hmul
    omega
  · have hmul : j * w ≤ j' * w := Nat.mul_le_mul_right w h
    omega

theorem idx_lt_prod (k c nR nC : Nat) (hk : k < nR) (hc : c < nC) : k + c * nR < nC * nR := by
  have h1 : k + c * nR < (c + 1) * nR := by rw [Nat.succ_mul]; omega
  have h2 : (c + 1) * nR ≤ nC * nR := Nat.mul_le_mul_right nR hc
  omega

/-! ### Transpose-staging lemmas for `riscv_mat_mult_fast_q15` -/

theorem mat_trans_col_miss (Bd : List Int) (c : Nat) :
    ∀ (bt : List Int) (pB px nRB m : Nat), (∀ j < c, m ≠ px + j * nRB) →
      (mat_trans_col Bd bt pB px nRB c).getD m 0 = bt.getD m 0 := by
  induction c with
  | zero => intro bt pB px nRB m _; rfl
  | succ n ih =>
      intro bt pB px nRB m hm
      rw [mat_trans_col, ih _ _ _ _ _ fun j hj => by
        rw [show px + nRB + j * nRB = px + (j + 1) * nRB from by ring]
        exact hm (j + 1) (by omega)]
      refine getD_set_ne _ _ _ _ _ fun he => ?_
      exact hm 0 (by omega) (by omega)

theorem mat_trans_col_hit (Bd : List Int) (c : Nat) :
    ∀ (bt : List Int) (pB px nRB j : Nat), j < c → 1 ≤ nRB →
      px + j * nRB < bt.length →
      (mat_trans_col Bd bt pB px nRB c).getD (px + j * nRB) 0 = Bd.getD (pB + j) 0 := by
  induction c with
  | zero => intro bt pB px nRB j hj _ _; omega
  | succ n ih =>
      intro bt pB px nRB j hj h1 hlen
      rw [mat_trans_col]
      cases j with
      | zero =>
          rw [mat_trans_col_miss Bd n _ _ _ _ _ fun j' hj' => by
            have hpos : 0 ≤ j' * nRB := Nat.zero_le _
            omega]
          simpa using getD_set_eq bt px _ 0 (by simpa using hlen)
      | succ j' =>
          rw [show px + (j' + 1) * nRB = (px + nRB) + j' * nRB from by ring,
            show pB + (j' + 1) = (pB + 1) + j' from by omega]
          refine ih _ (pB + 1) (px + nRB) nRB j' (by omega) h1 ?_
          rw [List.length_set]
          rw [show (px + nRB) + j' * nRB = px + (j' + 1) * nRB from by ring]
          exact hlen

theorem mat_trans_row_miss (Bd : List Int) (r : Nat) :
    ∀ (bt : List Int) (pB i nRB nCB m : Nat),
      (∀ a < r, ∀ j < nCB, m ≠ (i + a) + j * nRB) →
      (mat_trans_row Bd bt pB i nRB nCB r).getD m 0 = bt.getD m 0 := by
  induction r with
  | zero => intro bt pB i nRB nCB m _; rfl
  | succ n ih =>
      intro bt pB i nRB nCB m hm
      rw [mat_trans_row, ih _ _ _ _ _ _ fun a ha j hj => by
        rw [show (i + 1) + a + j * nRB = (i + (a + 1)) + j * nRB from by ring]
        exact hm (a + 1) (by omega) j hj]
      exact mat_trans_col_miss Bd nCB _ _ _ _ _ fun j hj => by
        have := hm 0 (by omega) j hj
        omega

theorem mat_trans_row_hit (Bd : List Int) (r : Nat) :
    ∀ (bt : List Int) (pB i nRB nCB a j : Nat),
      a < r → j < nCB → i + r ≤ nRB → (i + a) + j * nRB < bt.length →
      (mat_trans_row Bd bt pB i nRB nCB r).getD ((i + a) + j * nRB) 0 =
        Bd.getD ((pB + a * nCB) + j) 0 := by
  induction r with
  | zero => intro bt pB i nRB nCB a j ha _ _ _; omega
  | succ n ih =>
      intro bt pB i nRB nCB a j ha hj hR hlen
      rw [mat_trans_row]
      cases a with
      | zero =>
          rw [mat_trans_row_miss Bd n _ _ _ _ _ _ fun a' ha' j' hj' => by
            rw [show ((i + 1) + a') + j' * nRB = i + ((1 + a') + j' * nRB) from by ring,
              show (i + 0) + j * nRB = i + j * nRB from by ring]
            intro he
            exact idx_distinct (1 + a') j j' nRB (by omega) (by omega) (by omega)]
          rw [show (i + 0) + j * nRB = i + j * nRB from by ring]
          rw [mat_trans_col_hit Bd nCB bt pB i nRB j hj (by omega)
            (by rw [show i + j * nRB = (i + 0) + j * nRB from by ring]; exact hlen)]
          simp
      | succ a' =>
          rw [show (i + (a' + 1)) + j * nRB = ((i + 1) + a') + j * nRB from by ring]
          rw [show (pB + (a' + 1) * nCB) + j = ((pB + nCB) + a' * nCB) + j from by
            rw [Nat.succ_mul]; ring]
          refine ih _ (pB + nCB) (i + 1) nRB nCB a' j (by omega) hj (by omega) ?_
          have hlc : (mat_trans_col Bd bt pB i nRB nCB).length = bt.length := by
            clear * -
            induction nCB generalizing bt pB i with
            | zero => rfl
            | succ m ihc => rw [mat_trans_col, ihc]; simp
          rw [hlc, show ((i + 1) + a') + j * nRB = (i + (a' + 1)) + j * nRB from by ring]
          exact hlen

/-! ### Accumulator closed forms for `riscv_mat_mult_fast_q15` -/

theorem sumdotpv2_wrap (x0 x1 y0 y1 s : Int) :
    sumdotpv2 x0 x1 y0 y1 (wrapW 32 s) = wrapW 32 (s + x0 * y0 + x1 * y1) := by
  rw [sumdotpv2, show wrapW 32 s + x0 * y0 + x1 * y1 =
    wrapW 32 s + (x0 * y0 + x1 * y1) from by ring, wrapW_wrapW_add]
  congr 1
  ring

theorem mac_wrap (a b s : Int) : mac a b (wrapW 32 s) = wrapW 32 (s + a * b) := by
  rw [mac, wrapW_wrapW_add]

theorem mat_fast_macs4_succ_true (A BT : List Int) (pA pB n : Nat) (acc : Int) :
    mat_fast_macs4 true A BT pA pB (n + 1) acc =
      mat_fast_macs4 true A BT (pA + 4) (pB + 4) n
        (sumdotpv2 (A.getD (pA + 2) 0) (A.getD (pA + 3) 0) (BT.getD (pB + 2) 0)
          (BT.getD (pB + 3) 0)
          (sumdotpv2 (A.getD pA 0) (A.getD (pA + 1) 0) (BT.getD pB 0) (BT.getD (pB + 1) 0)
            acc)) := rfl

theorem mat_fast_macs4_succ_false (A BT : List Int) (pA pB n : Nat) (acc : Int) :
    mat_fast_macs4 false A BT pA pB (n + 1) acc =
      mat_fast_macs4 false A BT (pA + 4) (pB + 4) n
        (wrapW 32 (wrapW 32 (wrapW 32 (wrapW 32 (acc + A.getD pA 0 * BT.getD pB 0) +
          A.getD (pA + 1) 0 * BT.getD (pB + 1) 0) + A.getD (pA + 2) 0 * BT.getD (pB + 2) 0) +
          A.getD (pA + 3) 0 * BT.getD (pB + 3) 0)) := rfl

theorem dotS_four (s r : List Int) (p q : Nat) :
    dotS s r p q 4 = s.getD p 0 * r.getD q 0 + s.getD (p + 1) 0 * r.getD (q + 1) 0 +
      s.getD (p + 2) 0 * r.getD (q + 2) 0 + s.getD (p + 3) 0 * r.getD (q + 3) 0 := by
  show dotS s r p q (0 + 1 + 1 + 1 + 1) = _
  simp [dotS]

theorem wrap_chain4 (s t0 t1 t2 t3 : Int) :
    wrapW 32 (wrapW 32 (wrapW 32 (wrapW 32 (wrapW 32 s + t0) + t1) + t2) + t3) =
      wrapW 32 (s + t0 + t1 + t2 + t3) := by
  rw [wrapW_wrapW_add 32 s t0, wrapW_wrapW_add 32 (s + t0) t1,
    wrapW_wrapW_add 32 (s + t0 + t1) t2, wrapW_wrapW_add 32 (s + t0 + t1 + t2) t3]

theorem mat_fast_macs4_eq (dsp : Bool) (A BT : List Int) :
    ∀ (cnt pA pB : Nat) (s : Int),
      mat_fast_macs4 dsp A BT pA pB cnt (wrapW 32 s) =
        wrapW 32 (s + dotS A BT pA pB (4 * cnt)) := by
  intro cnt
  induction cnt with
  | zero => intro pA pB s; simp [mat_fast_macs4, dotS]
  | succ n ih =>
      intro pA pB s
      rw [show 4 * (n + 1) = 4 + 4 * n from by ring, dotS_add]
      cases dsp with
      | true =>
          rw [mat_fast_macs4_succ_true, sumdotpv2_wrap, sumdotpv2_wrap, ih]
          congr 1
          rw [dotS_four]
          ring
      | false =>
          rw [mat_fast_macs4_succ_false, wrap_chain4, ih]
          congr 1
          rw [dotS_four]
          ring

theorem mat_fast_mac1_succ_true (A BT : List Int) (pA pB n : Nat) (acc : Int) :
    mat_fast_mac1 true A BT pA pB (n + 1) acc =
      mat_fast_mac1 true A BT (pA + 1) (pB + 1) n (mac (A.getD pA 0) (BT.getD pB 0) acc) :=
  rfl

theorem mat_fast_mac1_succ_false (A BT : List Int) (pA pB n : Nat) (acc : Int) :
    mat_fast_mac1 false A BT pA pB (n + 1) acc =
      mat_fast_mac1 false A BT (pA + 1) (pB + 1) n
        (wrapW 32 (acc + A.getD pA 0 * BT.getD pB 0)) := rfl

theorem dotS_one (s r : List Int) (p q : Nat) :
    dotS s r p q 1 = s.getD p 0 * r.getD q 0 := by
  show dotS s r p q (0 + 1) = _
  simp [dotS]

theorem mat_fast_mac1_eq (dsp : Bool) (A BT : List Int) :
    ∀ (cnt pA pB : Nat) (s : Int),
      mat_fast_mac1 dsp A BT pA pB cnt (wrapW 32 s) =
        wrapW 32 (s + dotS A BT pA pB cnt) := by
  intro cnt
  induction cnt with
  | zero => intro pA pB s; simp [mat_fast_mac1, dotS]
  | succ n ih =>
      intro pA pB s
      cases dsp with
      | true =>
          rw [mat_fast_mac1_succ_true, mac_wrap, ih]
          congr 1
          rw [show n + 1 = 1 + n from by omega, dotS_add, dotS_one]
          ring
      | false =>
          rw [mat_fast_mac1_succ_false, wrapW_wrapW_add, ih]
          congr 1
          rw [show n + 1 = 1 + n from by omega, dotS_add, dotS_one]
          ring

theorem mat_fast_cell_eq (dsp : Bool) (A BT : List Int) (pA pB K : Nat) :
    mat_fast_cell dsp A BT pA pB K = wrapW 32 (dotS A BT pA pB K) := by
  rw [mat_fast_cell, show (0 : Int) = wrapW 32 0 from by decide, mat_fast_macs4_eq,
    mat_fast_mac1_eq, zero_add, ← dotS_add, Nat.div_add_mod]

theorem mat_fast_col_length (dsp : Bool) (A BT : List Int) (i K : Nat) :
    ∀ (col pB : Nat), (mat_fast_col dsp A BT i pB K col).length = col := by
  intro col
  induction col with
  | zero => intro pB; rfl
  | succ n ih => intro pB; rw [mat_fast_col]; simp [ih]

theorem mat_fast_col_getD (dsp : Bool) (A BT : List Int) (i K : Nat) :
    ∀ (col pB c : Nat), c < col →
      (mat_fast_col dsp A BT i pB K col).getD c 0 =
        wrapW 16 (mat_fast_cell dsp A BT i (pB + c * K) K >>> 15) := by
  intro col
  induction col with
  | zero => intro pB c hc; omega
  | succ n ih =>
      intro pB c hc
      rw [mat_fast_col]
      cases c with
      | zero => simp
      | succ c' =>
          rw [List.getD_cons_succ, ih (pB + K) c' (by omega),
            show pB + K + c' * K = pB + (c' + 1) * K from by ring]

theorem mat_fast_rows_length (dsp : Bool) (A BT : List Int) (K N : Nat) :
    ∀ (row i : Nat), (mat_fast_rows dsp A BT K N i row).length = row * N := by
  intro row
  induction row with
  | zero => intro i; simp [mat_fast_rows]
  | succ n ih =>
      intro i
      rw [mat_fast_rows, List.length_append, mat_fast_col_length, ih, Nat.succ_mul]
      omega

theorem mat_fast_rows_getD (dsp : Bool) (A BT : List Int) (K N : Nat) :
    ∀ (row i r c : Nat), r < row → c < N →
      (mat_fast_rows dsp A BT K N i row).getD (r * N + c) 0 =
        wrapW 16 (mat_fast_cell dsp A BT (i + r * K) (c * K) K >>> 15) := by
  intro row
  induction row with
  | zero => intro i r c hr _; omega
  | succ n ih =>
      intro i r c hr hc
      rw [mat_fast_rows]
      cases r with
      | zero =>
          rw [show 0 * N + c = c from by omega]
          rw [List.getD_append _ _ _ c (by rw [mat_fast_col_length]; exact hc)]
          rw [mat_fast_col_getD dsp A BT i K N 0 c hc]
          simp
      | succ r' =>
          rw [List.getD_append_right _ _ _ _ (by rw [mat_fast_col_length]; calc
            N ≤ (r' + 1) * N := by rw [Nat.succ_mul]; omega
            _ ≤ (r' + 1) * N + c := by omega)]
          rw [mat_fast_col_length]
          rw [show (r' + 1) * N + c - N = r' * N + c from by rw [Nat.succ_mul]; omega]
          rw [ih (i + K) r' c (by omega) hc]
          rw [show i + K + r' * K = i + (r' + 1) * K from by rw [Nat.succ_mul]; ring]

/-- Claim C2 (amended): with compatible dimensions and a correctly sized
scratch and destination, every element stored by `riscv_mat_mult_fast_q15`
equals the row-by-column dot product accumulated in a wrapping 32-bit
integer, arithmetically right-shifted by 15 bits, and then TRUNCATED to the
low 16 bits (`(q15_t)(sum >> 15)`, two's-complement wrap) — not saturated.
It agrees with the saturated value whenever the shifted sum lies within
`[-32768, 32767]`, but out-of-range values wrap (see
`mat_mult_fast_no_saturation`). -/
theorem riscv_mat_mult_fast_q15_spec (check dsp : Bool)
    (A B dst : riscv_matrix_instance_q15) (pState : List Int)
    (hAB : A.numCols = B.numRows) (hR : A.numRows = dst.numRows)
    (hC : B.numCols = dst.numCols)
    (hSlen : B.numRows * B.numCols ≤ pState.length)
    (hDlen : A.numRows * B.numCols ≤ dst.pData.length)
    (r c : Nat) (hr : r < A.numRows) (hc : c < B.numCols) :
    (riscv_mat_mult_fast_q15 check dsp A B dst pState).1 =
      riscv_status.RISCV_MATH_SUCCESS ∧
    (riscv_mat_mult_fast_q15 check dsp A B dst pState).2.getD (r * B.numCols + c) 0 =
      wrapW 16 ((wrapW 32 (∑ k ∈ Finset.range A.numCols,
        A.pData.getD (r * A.numCols + k) 0 * B.pData.getD (k * B.numCols + c) 0)) >>> 15) := by
  have hcond : ¬(check = true ∧ (A.numCols ≠ B.numRows ∨ A.numRows ≠ dst.numRows ∨
      B.numCols ≠ dst.numCols)) := by
    rintro ⟨-, h | h | h⟩
    · exact h hAB
    · exact h hR
    · exact h hC
  rw [riscv_mat_mult_fast_q15, if_neg hcond]
  refine ⟨rfl, ?_⟩
  have hidx : r * B.numCols + c < A.numRows * B.numCols := by
    have := idx_lt_prod c r B.numCols A.numRows hc hr
    omega
  rw [show r * B.numCols + c = 0 + (r * B.numCols + c) from by omega]
  rw [writeList_getD _ _ 0 _ (by rw [mat_fast_rows_length]; exact hidx) (by omega)]
  rw [mat_fast_rows_getD dsp A.pData _ A.numCols B.numCols A.numRows 0 r c hr hc]
  rw [mat_fast_cell_eq, dotS_eq_sum]
  have hsum : (∑ j ∈ Finset.range A.numCols,
      A.pData.getD (0 + r * A.numCols + j) 0 *
        (mat_trans_row B.pData pState 0 0 B.numRows B.numCols B.numRows).getD
          (c * A.numCols + j) 0) =
      ∑ k ∈ Finset.range A.numCols, A.pData.getD (r * A.numCols + k) 0 *
        B.pData.getD (k * B.numCols + c) 0 := by
    refine Finset.sum_congr rfl fun k hk => ?_
    have hkK : k < A.numCols := Finset.mem_range.mp hk
    rw [show 0 + r * A.numCols + k = r * A.numCols + k from by omega, hAB,
      show c * B.numRows + k = (0 + k) + c * B.numRows from by omega]
    rw [mat_trans_row_hit B.pData B.numRows pState 0 0 B.numRows B.numCols k c
      (by omega) hc (by omega) (by
        rw [show (0 + k) + c * B.numRows = k + c * B.numRows from by omega]
        have h1 := idx_lt_prod k c B.numRows B.numCols (by omega) hc
        have h2 : B.numCols * B.numRows = B.numRows * B.numCols := Nat.mul_comm _ _
        omega)]
    rw [show (0 + k * B.numCols) + c = k * B.numCols + c from by omega]
  rw [hsum]

/-- Witness for C2 (amended) at a concrete input: `0.5*I (2x2)` times
`[[100,200],[300,400]]`, element `(1,0)`. -/
theorem riscv_mat_mult_fast_q15_spec_witness :
    (riscv_mat_mult_fast_q15 true false ⟨2, 2, [16384, 0, 0, 16384]⟩
        ⟨2, 2, [100, 200, 300, 400]⟩ ⟨2, 2, [0, 0, 0, 0]⟩ [0, 0, 0, 0]).1 =
      riscv_status.RISCV_MATH_SUCCESS ∧
    (riscv_mat_mult_fast_q15 true false ⟨2, 2, [16384, 0, 0, 16384]⟩
        ⟨2, 2, [100, 200, 300, 400]⟩ ⟨2, 2, [0, 0, 0, 0]⟩ [0, 0, 0, 0]).2.getD
        (1 * 2 + 0) 0 =
      wrapW 16 ((wrapW 32 (∑ k ∈ Finset.range 2,
        (([16384, 0, 0, 16384] : List Int).getD (1 * 2 + k) 0 *
          ([100, 200, 300, 400] : List Int).getD (k * 2 + 0) 0 : Int))) >>> 15) :=
  riscv_mat_mult_fast_q15_spec true false ⟨2, 2, [16384, 0, 0, 16384]⟩
    ⟨2, 2, [100, 200, 300, 400]⟩ ⟨2, 2, [0, 0, 0, 0]⟩ [0, 0, 0, 0] rfl rfl rfl
    (by decide) (by decide) 1 0 (by decide) (by decide)

/-! ### Transpose-staging lemmas for `riscv_mat_cmplx_mult_q15` -/

theorem offset_mul_inj (o1 o2 j1 j2 w : Nat) (h1 : o1 < w) (h2 : o2 < w)
    (he : o1 + j1 * w = o2 + j2 * w) : o1 = o2 ∧ j1 = j2 := by
  rcases Nat.lt_trichotomy j1 j2 with h | h | h
  · have hmul : (j1 + 1) * w ≤ j2 * w := Nat.mul_le_mul_right w h
    rw [Nat.succ_mul] at hmul
    omega
  · subst h
    omega
  · have hmul : (j2 + 1) * w ≤ j1 * w := Nat.mul_le_mul_right w h
    rw [Nat.succ_mul] at hmul
    omega

theorem wrapW16_eq_self (x : Int) (h1 : -32768 ≤ x) (h2 : x < 32768) : wrapW 16 x = x := by
  unfold wrapW
  norm_num
  omega

theorem clip_eq_ssat16 (x : Int) : clip x (-32768) 32767 = ssat16 x := by
  unfold clip ssat16
  split_ifs <;> omega

theorem cmplx_trans_col_miss (Bd : List Int) (c : Nat) :
    ∀ (bt : List Int) (pB px nRB m : Nat),
      (∀ j < c, m ≠ px + j * (2 * nRB) ∧ m ≠ px + j * (2 * nRB) + 1) →
      (cmplx_trans_col Bd bt pB px nRB c).getD m 0 = bt.getD m 0 := by
  induction c with
  | zero => intro bt pB px nRB m _; rfl
  | succ n ih =>
      intro bt pB px nRB m hm
      rw [cmplx_trans_col, ih _ _ _ _ _ fun j hj => by
        constructor
        · rw [show px + 2 * nRB + j * (2 * nRB) = px + (j + 1) * (2 * nRB) from by ring]
          exact (hm (j + 1) (by omega)).1
        · rw [show px + 2 * nRB + j * (2 * nRB) + 1 = px + (j + 1) * (2 * nRB) + 1 from by
            ring]
          exact (hm (j + 1) (by omega)).2]
      have h0 := hm 0 (by omega)
      rw [getD_set_ne _ _ _ _ _ (by omega), getD_set_ne _ _ _ _ _ (by omega)]

theorem cmplx_trans_col_hit (Bd : List Int) (c : Nat) :
    ∀ (bt : List Int) (pB px nRB j e : Nat), j < c → e < 2 → 1 ≤ nRB →
      px + j * (2 * nRB) + e < bt.length →
      (cmplx_trans_col Bd bt pB px nRB c).getD (px + j * (2 * nRB) + e) 0 =
        Bd.getD (pB + 2 * j + e) 0 := by
  induction c with
  | zero => intro bt pB px nRB j e hj _ _ _; omega
  | succ n ih =>
      intro bt pB px nRB j e hj he h1 hlen
      rw [cmplx_trans_col]
      cases j with
      | zero =>
          rw [cmplx_trans_col_miss Bd n _ _ _ _ _ fun j' hj' => by
            have hpos : 0 ≤ j' * (2 * nRB) := Nat.zero_le _
            omega]
          cases e with
          | zero =>
              rw [show px + 0 * (2 * nRB) + 0 = px from by omega,
                getD_set_ne _ _ _ _ _ (by omega)]
              refine getD_set_eq bt px _ 0 ?_
              have : px + 0 * (2 * nRB) + 0 = px := by omega
              omega
          | succ e1 =>
              have he1 : e1 = 0 := by omega
              subst he1
              rw [show px + 0 * (2 * nRB) + 1 = px + 1 from by omega]
              refine getD_set_eq _ (px + 1) _ 0 ?_
              rw [List.length_set]
              have : px + 0 * (2 * nRB) + 1 = px + 1 := by omega
              omega
      | succ j' =>
          rw [show px + (j' + 1) * (2 * nRB) + e = (px + 2 * nRB) + j' * (2 * nRB) + e from by
            ring, show pB + 2 * (j' + 1) + e = (pB + 2) + 2 * j' + e from by omega]
          refine ih _ (pB + 2) (px + 2 * nRB) nRB j' e (by omega) he h1 ?_
          simp only [List.length_set]
          rw [show (px + 2 * nRB) + j' * (2 * nRB) + e = px + (j' + 1) * (2 * nRB) + e from by
            ring]
          exact hlen

theorem cmplx_trans_row_miss (Bd : List Int) (r : Nat) :
    ∀ (bt : List Int) (pB i nRB nCB m : Nat),
      (∀ a < r, ∀ j < nCB, m ≠ (i + 2 * a) + j * (2 * nRB) ∧
        m ≠ (i + 2 * a) + j * (2 * nRB) + 1) →
      (cmplx_trans_row Bd bt pB i nRB nCB r).getD m 0 = bt.getD m 0 := by
  induction r with
  | zero => intro bt pB i nRB nCB m _; rfl
  | succ n ih =>
      intro bt pB i nRB nCB m hm
      rw [cmplx_trans_row, ih _ _ _ _ _ _ fun a ha j hj => by
        rw [show ((i + 2) + 2 * a) + j * (2 * nRB) = (i + 2 * (a + 1)) + j * (2 * nRB) from by
          ring]
        exact hm (a + 1) (by omega) j hj]
      exact cmplx_trans_col_miss Bd nCB _ _ _ _ _ fun j hj => by
        have := hm 0 (by omega) j hj
        omega

theorem cmplx_trans_row_hit (Bd : List Int) (r : Nat) :
    ∀ (bt : List Int) (pB i nRB nCB a j e : Nat),
      a < r → j < nCB → e < 2 → i + 2 * r ≤ 2 * nRB →
      (i + 2 * a) + j * (2 * nRB) + e < bt.length →
      (cmplx_trans_row Bd bt pB i nRB nCB r).getD ((i + 2 * a) + j * (2 * nRB) + e) 0 =
        Bd.getD ((pB + 2 * nCB * a) + 2 * j + e) 0 := by
  induction r with
  | zero => intro bt pB i nRB nCB a j e ha _ _ _ _; omega
  | succ n ih =>
      intro bt pB i nRB nCB a j e ha hj he hR hlen
      rw [cmplx_trans_row]
      cases a with
      | zero =>
          rw [cmplx_trans_row_miss Bd n _ _ _ _ _ _ fun a' ha' j' hj' => by
            constructor
            · intro hcontra
              have he2 : e + j * (2 * nRB) = (2 + 2 * a') + j' * (2 * nRB) := by omega
              have := offset_mul_inj e (2 + 2 * a') j j' (2 * nRB) (by omega) (by omega) he2
              omega
            · intro hcontra
              have he2 : e + j * (2 * nRB) = (2 + 2 * a' + 1) + j' * (2 * nRB) := by omega
              have := offset_mul_inj e (2 + 2 * a' + 1) j j' (2 * nRB) (by omega) (by omega)
                he2
              omega]
          rw [show (i + 2 * 0) + j * (2 * nRB) + e = i + j * (2 * nRB) + e from by ring]
          rw [cmplx_trans_col_hit Bd nCB bt pB i nRB j e hj he (by omega)
            (by rw [show i + j * (2 * nRB) + e = (i + 2 * 0) + j * (2 * nRB) + e from by ring]
                exact hlen)]
          rw [show (pB + 2 * nCB * 0) + 2 * j + e = pB + 2 * j + e from by omega]
      | succ a' =>
          rw [show (i + 2 * (a' + 1)) + j * (2 * nRB) + e =
            ((i + 2) + 2 * a') + j * (2 * nRB) + e from by ring]
          rw [show (pB + 2 * nCB * (a' + 1)) + 2 * j + e =
            ((pB + 2 * nCB) + 2 * nCB * a') + 2 * j + e from by ring]
          refine ih _ (pB + 2 * nCB) (i + 2) nRB nCB a' j e (by omega) hj he (by omega) ?_
          have hlc : (cmplx_trans_col Bd bt pB i nRB nCB).length = bt.length := by
            clear * -
            induction nCB generalizing bt pB i with
            | zero => rfl
            | succ m ihc => rw [cmplx_trans_col, ihc]; simp
          rw [hlc, show ((i + 2) + 2 * a') + j * (2 * nRB) + e =
            (i + 2 * (a' + 1)) + j * (2 * nRB) + e from by ring]
          exact hlen

/-! ### Complex accumulation closed forms for `riscv_mat_cmplx_mult_q15` -/

/-- Real part of the complex dot product over `cnt` interleaved cells:
`Σ_{n<cnt} (a.re*b.re - a.im*b.im)`. -/
def cdotRe (A BT : List Int) (pA pB cnt : Nat) : Int :=
  match cnt with
  | 0 => 0
  | n + 1 => cdotRe A BT pA pB n +
      (A.getD (pA + 2 * n) 0 * BT.getD (pB + 2 * n) 0 -
        A.getD (pA + 2 * n + 1) 0 * BT.getD (pB + 2 * n + 1) 0)

/-- Imaginary part of the complex dot product over `cnt` interleaved cells:
`Σ_{n<cnt} (a.re*b.im + a.im*b.re)`. -/
def cdotIm (A BT : List Int) (pA pB cnt : Nat) : Int :=
  match cnt with
  | 0 => 0
  | n + 1 => cdotIm A BT pA pB n +
      (A.getD (pA + 2 * n) 0 * BT.getD (pB + 2 * n + 1) 0 +
        A.getD (pA + 2 * n + 1) 0 * BT.getD (pB + 2 * n) 0)

theorem cdotRe_add (A BT : List Int) (pA pB m : Nat) :
    ∀ k, cdotRe A BT pA pB (m + k) =
      cdotRe A BT pA pB m + cdotRe A BT (pA + 2 * m) (pB + 2 * m) k := by
  intro k
  induction k with
  | zero => simp [cdotRe]
  | succ n ih =>
      show cdotRe A BT pA pB (m + n + 1) = _
      simp only [cdotRe, ih]
      rw [show pA + 2 * (m + n) = pA + 2 * m + 2 * n from by ring,
        show pB + 2 * (m + n) = pB + 2 * m + 2 * n from by ring]
      ring

theorem cdotIm_add (A BT : List Int) (pA pB m : Nat) :
    ∀ k, cdotIm A BT pA pB (m + k) =
      cdotIm A BT pA pB m + cdotIm A BT (pA + 2 * m) (pB + 2 * m) k := by
  intro k
  induction k with
  | zero => simp [cdotIm]
  | succ n ih =>
      show cdotIm A BT pA pB (m + n + 1) = _
      simp only [cdotIm, ih]
      rw [show pA + 2 * (m + n) = pA + 2 * m + 2 * n from by ring,
        show pB + 2 * (m + n) = pB + 2 * m + 2 * n from by ring]
      ring

theorem cmplx_mac_eq (dsp : Bool) (a b c d sR sI : Int)
    (hb : dsp = true → -32767 ≤ b ∧ b ≤ 32767) :
    cmplx_mac dsp a b c d sR sI = (sR + (a * c - b * d), sI + (a * d + b * c)) := by
  cases dsp with
  | false =>
      unfold cmplx_mac
      simp only [Bool.false_eq_true, if_false, Prod.mk.injEq]
      constructor <;> ring
  | true =>
      obtain ⟨hb1, hb2⟩ := hb rfl
      unfold cmplx_mac dotpv2
      rw [wrapW16_eq_self (-b) (by omega) (by omega)]
      simp only [if_true, Prod.mk.injEq]
      constructor <;> ring

theorem cdotRe_two (A BT : List Int) (pA pB : Nat) :
    cdotRe A BT pA pB 2 =
      (A.getD pA 0 * BT.getD pB 0 - A.getD (pA + 1) 0 * BT.getD (pB + 1) 0) +
      (A.getD (pA + 2) 0 * BT.getD (pB + 2) 0 - A.getD (pA + 3) 0 * BT.getD (pB + 3) 0) := by
  show cdotRe A BT pA pB (0 + 1 + 1) = _
  simp [cdotRe]

theorem cdotIm_two (A BT : List Int) (pA pB : Nat) :
    cdotIm A BT pA pB 2 =
      (A.getD pA 0 * BT.getD (pB + 1) 0 + A.getD (pA + 1) 0 * BT.getD pB 0) +
      (A.getD (pA + 2) 0 * BT.getD (pB + 3) 0 + A.getD (pA + 3) 0 * BT.getD (pB + 2) 0) := by
  show cdotIm A BT pA pB (0 + 1 + 1) = _
  simp [cdotIm]

theorem cmplx_mac_loop_succ (dsp : Bool) (A BT : List Int) (pA pB n : Nat) (sR sI : Int) :
    cmplx_mac_loop dsp A BT pA pB (n + 1) sR sI =
      cmplx_mac_loop dsp A BT (pA + 4) (pB + 4) n
        (cmplx_mac dsp (A.getD (pA + 2) 0) (A.getD (pA + 3) 0) (BT.getD (pB + 2) 0)
          (BT.getD (pB + 3) 0)
          (cmplx_mac dsp (A.getD pA 0) (A.getD (pA + 1) 0) (BT.getD pB 0)
            (BT.getD (pB + 1) 0) sR sI).1
          (cmplx_mac dsp (A.getD pA 0) (A.getD (pA + 1) 0) (BT.getD pB 0)
            (BT.getD (pB + 1) 0) sR sI).2).1
        (cmplx_mac dsp (A.getD (pA + 2) 0) (A.getD (pA + 3) 0) (BT.getD (pB + 2) 0)
          (BT.getD (pB + 3) 0)
          (cmplx_mac dsp (A.getD pA 0) (A.getD (pA + 1) 0) (BT.getD pB 0)
            (BT.getD (pB + 1) 0) sR sI).1
          (cmplx_mac dsp (A.getD pA 0) (A.getD (pA + 1) 0) (BT.getD pB 0)
            (BT.getD (pB + 1) 0) sR sI).2).2 := rfl

theorem cmplx_mac_loop_eq (dsp : Bool) (A BT : List Int)
    (hA : dsp = true → ∀ m, -32767 ≤ A.getD (2 * m + 1) 0 ∧ A.getD (2 * m + 1) 0 ≤ 32767) :
    ∀ (cnt t pB : Nat) (sR sI : Int),
      cmplx_mac_loop dsp A BT (2 * t) pB cnt sR sI =
        (sR + cdotRe A BT (2 * t) pB (2 * cnt), sI + cdotIm A BT (2 * t) pB (2 * cnt)) := by
  intro cnt
  induction cnt with
  | zero => intro t pB sR sI; simp [cmplx_mac_loop, cdotRe, cdotIm]
  | succ n ih =>
      intro t pB sR sI
      rw [cmplx_mac_loop_succ]
      rw [cmplx_mac_eq dsp (A.getD (2 * t) 0) (A.getD (2 * t + 1) 0) (BT.getD pB 0)
        (BT.getD (pB + 1) 0) sR sI (fun hd => hA hd t)]
      rw [cmplx_mac_eq dsp (A.getD (2 * t + 2) 0) (A.getD (2 * t + 3) 0)
        (BT.getD (pB + 2) 0) (BT.getD (pB + 3) 0) _ _ (fun hd => by
          have h := hA hd (t + 1)
          rw [show 2 * (t + 1) + 1 = 2 * t + 3 from by ring] at h
          exact h)]
      dsimp only
      rw [show (2 : Nat) * t + 4 = 2 * (t + 2) from by ring, ih (t + 2) (pB + 4)]
      rw [show (2 : Nat) * (n + 1) = 2 + 2 * n from by ring, cdotRe_add, cdotIm_add,
        cdotRe_two, cdotIm_two]
      rw [show (2 : Nat) * t + 2 * 2 = 2 * (t + 2) from by ring,
        show pB + 2 * 2 = pB + 4 from by ring]
      simp only [Prod.mk.injEq]
      constructor <;> ring

theorem cmplx_cell_eq (dsp : Bool) (A BT : List Int)
    (hA : dsp = true → ∀ m, -32767 ≤ A.getD (2 * m + 1) 0 ∧ A.getD (2 * m + 1) 0 ≤ 32767)
    (t pB K : Nat) :
    cmplx_cell dsp A BT (2 * t) pB K =
      (cdotRe A BT (2 * t) pB K, cdotIm A BT (2 * t) pB K) := by
  rw [cmplx_cell, cmplx_mac_loop_eq dsp A BT hA (K / 2) t pB 0 0]
  by_cases hM : K % 2 = 1
  · rw [if_pos hM]
    rw [show (2 : Nat) * t + 4 * (K / 2) = 2 * t + 2 * (2 * (K / 2)) from by ring,
      show pB + 4 * (K / 2) = pB + 2 * (2 * (K / 2)) from by ring]
    rw [cmplx_mac_eq dsp _ _ _ _ _ _ (fun hd => by
      have h := hA hd (t + 2 * (K / 2))
      rw [show 2 * (t + 2 * (K / 2)) + 1 = 2 * t + 2 * (2 * (K / 2)) + 1 from by ring] at h
      exact h)]
    dsimp only
    have hK : K = 2 * (K / 2) + 1 := by omega
    rw [show cdotRe A BT (2 * t) pB K = cdotRe A BT (2 * t) pB (2 * (K / 2)) +
        (A.getD (2 * t + 2 * (2 * (K / 2))) 0 * BT.getD (pB + 2 * (2 * (K / 2))) 0 -
          A.getD (2 * t + 2 * (2 * (K / 2)) + 1) 0 *
            BT.getD (pB + 2 * (2 * (K / 2)) + 1) 0) from by
      conv_lhs => rw [hK]
      rw [show (2 : Nat) * (K / 2) + 1 = (2 * (K / 2)) + 1 from rfl]
      show cdotRe A BT (2 * t) pB (2 * (K / 2)) + _ = _
      rw [show (2 : Nat) * t + 2 * (2 * (K / 2)) = 2 * t + 2 * (2 * (K / 2)) from rfl]]
    rw [show cdotIm A BT (2 * t) pB K = cdotIm A BT (2 * t) pB (2 * (K / 2)) +
        (A.getD (2 * t + 2 * (2 * (K / 2))) 0 * BT.getD (pB + 2 * (2 * (K / 2)) + 1) 0 +
          A.getD (2 * t + 2 * (2 * (K / 2)) + 1) 0 *
            BT.getD (pB + 2 * (2 * (K / 2))) 0) from by
      conv_lhs => rw [hK]
      show cdotIm A BT (2 * t) pB (2 * (K / 2)) + _ = _
      rfl]
    simp only [Prod.mk.injEq]
    constructor <;> ring
  · rw [if_neg hM]
    have hK : 2 * (K / 2) = K := by omega
    rw [hK]
    simp

theorem cmplx_col_length (dsp : Bool) (A BT : List Int) (pA K : Nat) :
    ∀ (col pB : Nat), (cmplx_col dsp A BT pA pB K col).length = 2 * col := by
  intro col
  induction col with
  | zero => intro pB; rfl
  | succ n ih =>
      intro pB
      rw [cmplx_col]
      simp only [List.length_cons, ih]
      omega

theorem cmplx_col_getD_re (dsp : Bool) (A BT : List Int) (pA K : Nat) :
    ∀ (col pB c : Nat), c < col →
      (cmplx_col dsp A BT pA pB K col).getD (2 * c) 0 =
        ssat16 ((cmplx_cell dsp A BT pA (pB + c * (2 * K)) K).1 >>> 15) := by
  intro col
  induction col with
  | zero => intro pB c hc; omega
  | succ n ih =>
      intro pB c hc
      rw [cmplx_col]
      cases c with
      | zero =>
          simp only [Nat.mul_zero, List.getD_cons_zero]
          rw [clip_eq_ssat16, ite_self, show pB + 0 * (2 * K) = pB from by omega]
      | succ c' =>
          rw [show (2 : Nat) * (c' + 1) = (2 * c' + 1) + 1 from by ring,
            List.getD_cons_succ, List.getD_cons_succ, ih (pB + 2 * K) c' (by omega),
            show pB + 2 * K + c' * (2 * K) = pB + (c' + 1) * (2 * K) from by ring]

theorem cmplx_col_getD_im (dsp : Bool) (A BT : List Int) (pA K : Nat) :
    ∀ (col pB c : Nat), c < col →
      (cmplx_col dsp A BT pA pB K col).getD (2 * c + 1) 0 =
        ssat16 ((cmplx_cell dsp A BT pA (pB + c * (2 * K)) K).2 >>> 15) := by
  intro col
  induction col with
  | zero => intro pB c hc; omega
  | succ n ih =>
      intro pB c hc
      rw [cmplx_col]
      cases c with
      | zero =>
          simp only [Nat.mul_zero, Nat.zero_add, List.getD_cons_succ, List.getD_cons_zero]
          rw [clip_eq_ssat16, ite_self, show pB + 0 * (2 * K) = pB from by omega]
      | succ c' =>
          rw [show (2 : Nat) * (c' + 1) + 1 = ((2 * c' + 1) + 1) + 1 from by ring,
            List.getD_cons_succ, List.getD_cons_succ, ih (pB + 2 * K) c' (by omega),
            show pB + 2 * K + c' * (2 * K) = pB + (c' + 1) * (2 * K) from by ring]

theorem cmplx_rows_length (dsp : Bool) (A BT : List Int) (K N : Nat) :
    ∀ (row i : Nat), (cmplx_rows dsp A BT K N i row).length = row * (2 * N) := by
  intro row
  induction row with
  | zero => intro i; simp [cmplx_rows]
  | succ n ih =>
      intro i
      rw [cmplx_rows, List.length_append, cmplx_col_length, ih]
      ring

theorem cmplx_rows_getD_re (dsp : Bool) (A BT : List Int) (K N : Nat) :
    ∀ (row i r c : Nat), r < row → c < N →
      (cmplx_rows dsp A BT K N i row).getD (2 * (r * N + c)) 0 =
        ssat16 ((cmplx_cell dsp A BT (2 * (i + r * K)) (c * (2 * K)) K).1 >>> 15) := by
  intro row
  induction row with
  | zero => intro i r c hr _; omega
  | succ n ih =>
      intro i r c hr hc
      rw [cmplx_rows]
      cases r with
      | zero =>
          rw [show (2 : Nat) * (0 * N + c) = 2 * c from by ring]
          rw [List.getD_append _ _ _ _ (by rw [cmplx_col_length]; omega)]
          rw [cmplx_col_getD_re dsp A BT (2 * i) K N 0 c hc]
          rw [show (0 : Nat) + c * (2 * K) = c * (2 * K) from by omega,
            show i + 0 * K = i from by omega]
      | succ r' =>
          rw [List.getD_append_right _ _ _ _ (by rw [cmplx_col_length]; calc
            2 * N ≤ 2 * ((r' + 1) * N) := by
              have : N ≤ (r' + 1) * N := by rw [Nat.succ_mul]; omega
              omega
            _ ≤ 2 * ((r' + 1) * N + c) := by omega)]
          rw [cmplx_col_length]
          rw [show 2 * ((r' + 1) * N + c) - 2 * N = 2 * (r' * N + c) from by
            rw [Nat.succ_mul]; ring_nf; omega]
          rw [ih (i + K) r' c (by omega) hc]
          rw [show i + K + r' * K = i + (r' + 1) * K from by rw [Nat.succ_mul]; ring]

theorem cmplx_rows_getD_im (dsp : Bool) (A BT : List Int) (K N : Nat) :
    ∀ (row i r c : Nat), r < row → c < N →
      (cmplx_rows dsp A BT K N i row).getD (2 * (r * N + c) + 1) 0 =
        ssat16 ((cmplx_cell dsp A BT (2 * (i + r * K)) (c * (2 * K)) K).2 >>> 15) := by
  intro row
  induction row with
  | zero => intro i r c hr _; omega
  | succ n ih =>
      intro i r c hr hc
      rw [cmplx_rows]
      cases r with
      | zero =>
          rw [show (2 : Nat) * (0 * N + c) + 1 = 2 * c + 1 from by ring]
          rw [List.getD_append _ _ _ _ (by rw [cmplx_col_length]; omega)]
          rw [cmplx_col_getD_im dsp A BT (2 * i) K N 0 c hc]
          rw [show (0 : Nat) + c * (2 * K) = c * (2 * K) from by omega,
            show i + 0 * K = i from by omega]
      | succ r' =>
          rw [List.getD_append_right _ _ _ _ (by rw [cmplx_col_length]; calc
            2 * N ≤ 2 * ((r' + 1) * N) := by
              have : N ≤ (r' + 1) * N := by rw [Nat.succ_mul]; omega
              omega
            _ ≤ 2 * ((r' + 1) * N + c) + 1 := by omega)]
          rw [cmplx_col_length]
          rw [show 2 * ((r' + 1) * N + c) + 1 - 2 * N = 2 * (r' * N + c) + 1 from by
            rw [Nat.succ_mul]; ring_nf; omega]
          rw [ih (i + K) r' c (by omega) hc]
          rw [show i + K + r' * K = i + (r' + 1) * K from by rw [Nat.succ_mul]; ring]

theorem cdotRe_eq_sum (A BT : List Int) (pA pB : Nat) :
    ∀ cnt, cdotRe A BT pA pB cnt = ∑ k ∈ Finset.range cnt,
      (A.getD (pA + 2 * k) 0 * BT.getD (pB + 2 * k) 0 -
        A.getD (pA + 2 * k + 1) 0 * BT.getD (pB + 2 * k + 1) 0) := by
  intro cnt
  induction cnt with
  | zero => simp [cdotRe]
  | succ n ih => rw [Finset.sum_range_succ, ← ih]; rfl

theorem cdotIm_eq_sum (A BT : List Int) (pA pB : Nat) :
    ∀ cnt, cdotIm A BT pA pB cnt = ∑ k ∈ Finset.range cnt,
      (A.getD (pA + 2 * k) 0 * BT.getD (pB + 2 * k + 1) 0 +
        A.getD (pA + 2 * k + 1) 0 * BT.getD (pB + 2 * k) 0) := by
  intro cnt
  induction cnt with
  | zero => simp [cdotIm]
  | succ n ih => rw [Finset.sum_range_succ, ← ih]; rfl

/-- Claim C4 (amended): for conforming complex Q15 matrices with correctly
sized scratch and destination buffers, every output cell of
`riscv_mat_cmplx_mult_q15` has real part
`SSAT((Σ_k a.re*b.re − a.im*b.im) >> 15, 16)` and imaginary part
`SSAT((Σ_k a.re*b.im + a.im*b.re) >> 15, 16)`, the sums accumulated exactly
in 64-bit and shifted-and-saturated once per cell — unconditionally on the
scalar path, and on the DSP path provided every imaginary component of `A`
lies in `[-32767, 32767]` (at `a.im = -32768` the DSP path's negated-lane
trick wraps and deviates, see `mat_cmplx_mult_dsp_wrap`). -/
theorem riscv_mat_cmplx_mult_q15_spec (check dsp : Bool)
    (A B dst : riscv_matrix_instance_q15) (pScratch : List Int)
    (hAB : A.numCols = B.numRows) (hR : A.numRows = dst.numRows)
    (hC : B.numCols = dst.numCols)
    (hSlen : 2 * (B.numRows * B.numCols) ≤ pScratch.length)
    (hDlen : 2 * (A.numRows * B.numCols) ≤ dst.pData.length)
    (hDSP : dsp = true → ∀ m, -32767 ≤ A.pData.getD (2 * m + 1) 0 ∧
      A.pData.getD (2 * m + 1) 0 ≤ 32767)
    (r c : Nat) (hr : r < A.numRows) (hc : c < B.numCols) :
    (riscv_mat_cmplx_mult_q15 check dsp A B dst pScratch).1 =
      riscv_status.RISCV_MATH_SUCCESS ∧
    (riscv_mat_cmplx_mult_q15 check dsp A B dst pScratch).2.getD
        (2 * (r * B.numCols + c)) 0 =
      ssat16 ((∑ k ∈ Finset.range A.numCols,
        (A.pData.getD (2 * (r * A.numCols + k)) 0 *
            B.pData.getD (2 * (k * B.numCols + c)) 0 -
          A.pData.getD (2 * (r * A.numCols + k) + 1) 0 *
            B.pData.getD (2 * (k * B.numCols + c) + 1) 0)) >>> 15) ∧
    (riscv_mat_cmplx_mult_q15 check dsp A B dst pScratch).2.getD
        (2 * (r * B.numCols + c) + 1) 0 =
      ssat16 ((∑ k ∈ Finset.range A.numCols,
        (A.pData.getD (2 * (r * A.numCols + k)) 0 *
            B.pData.getD (2 * (k * B.numCols + c) + 1) 0 +
          A.pData.getD (2 * (r * A.numCols + k) + 1) 0 *
            B.pData.getD (2 * (k * B.numCols + c)) 0)) >>> 15) := by
  have hcond : ¬(check = true ∧ (A.numCols ≠ B.numRows ∨ A.numRows ≠ dst.numRows ∨
      B.numCols ≠ dst.numCols)) := by
    rintro ⟨-, h | h | h⟩
    · exact h hAB
    · exact h hR
    · exact h hC
  rw [riscv_mat_cmplx_mult_q15, if_neg hcond]
  have hlen2 : A.numRows * (2 * B.numCols) = 2 * (A.numRows * B.numCols) := by ring
  have hidx : r * B.numCols + c < A.numRows * B.numCols := by
    have := idx_lt_prod c r B.numCols A.numRows hc hr
    omega
  have hBT : ∀ k e, k < A.numCols → e < 2 →
      (cmplx_trans_row B.pData pScratch 0 0 B.numRows B.numCols B.numRows).getD
        (c * (2 * A.numCols) + 2 * k + e) 0 = B.pData.getD (2 * (k * B.numCols + c) + e) 0 := by
    intro k e hk he
    rw [show c * (2 * A.numCols) + 2 * k + e =
      (0 + 2 * k) + c * (2 * B.numRows) + e from by rw [hAB]; ring]
    rw [cmplx_trans_row_hit B.pData B.numRows pScratch 0 0 B.numRows B.numCols k c e
      (by omega) hc he (by omega) (by
        have h1 := idx_lt_prod k c B.numRows B.numCols (by omega) hc
        have h2 : c * (2 * B.numRows) = 2 * (c * B.numRows) := by ring
        have h3 : 2 * (B.numRows * B.numCols) = 2 * (B.numCols * B.numRows) := by ring
        omega)]
    rw [show (0 + 2 * B.numCols * k) + 2 * c + e = 2 * (k * B.numCols + c) + e from by ring]
  refine ⟨rfl, ?_, ?_⟩
  · rw [show 2 * (r * B.numCols + c) = 0 + 2 * (r * B.numCols + c) from by omega]
    rw [writeList_getD _ _ 0 _ (by rw [cmplx_rows_length]; omega) (by omega)]
    rw [cmplx_rows_getD_re dsp A.pData _ A.numCols B.numCols A.numRows 0 r c hr hc]
    rw [cmplx_cell_eq dsp A.pData _ hDSP (0 + r * A.numCols) (c * (2 * A.numCols))
      A.numCols]
    dsimp only
    rw [cdotRe_eq_sum]
    congr 2
    refine Finset.sum_congr rfl fun k hk => ?_
    have hkK : k < A.numCols := Finset.mem_range.mp hk
    rw [show 2 * (0 + r * A.numCols) + 2 * k = 2 * (r * A.numCols + k) from by ring]
    have h0 := hBT k 0 hkK (by omega)
    rw [show c * (2 * A.numCols) + 2 * k + 0 = c * (2 * A.numCols) + 2 * k from by omega,
      show 2 * (k * B.numCols + c) + 0 = 2 * (k * B.numCols + c) from by omega] at h0
    rw [h0, hBT k 1 hkK (by omega)]
  · rw [show 2 * (r * B.numCols + c) + 1 = 0 + (2 * (r * B.numCols + c) + 1) from by omega]
    rw [writeList_getD _ _ 0 _ (by rw [cmplx_rows_length]; omega) (by omega)]
    rw [cmplx_rows_getD_im dsp A.pData _ A.numCols B.numCols A.numRows 0 r c hr hc]
    rw [cmplx_cell_eq dsp A.pData _ hDSP (0 + r * A.numCols) (c * (2 * A.numCols))
      A.numCols]
    dsimp only
    rw [cdotIm_eq_sum]
    congr 2
    refine Finset.sum_congr rfl fun k hk => ?_
    have hkK : k < A.numCols := Finset.mem_range.mp hk
    rw [show 2 * (0 + r * A.numCols) + 2 * k = 2 * (r * A.numCols + k) from by ring]
    have h0 := hBT k 0 hkK (by omega)
    rw [show c * (2 * A.numCols) + 2 * k + 0 = c * (2 * A.numCols) + 2 * k from by omega,
      show 2 * (k * B.numCols + c) + 0 = 2 * (k * B.numCols + c) from by omega] at h0
    rw [h0, hBT k 1 hkK (by omega)]

/-- Witness for C4 (amended) at a concrete input: the 1×1 complex product
`(0.5 + (100/32768)i) * (200/32768 + (300/32768)i)` on the scalar path. -/
theorem riscv_mat_cmplx_mult_q15_spec_witness :
    (riscv_mat_cmplx_mult_q15 true false ⟨1, 1, [16384, 100]⟩ ⟨1, 1, [200, 300]⟩
        ⟨1, 1, [0, 0]⟩ [0, 0]).1 = riscv_status.RISCV_MATH_SUCCESS ∧
    (riscv_mat_cmplx_mult_q15 true false ⟨1, 1, [16384, 100]⟩ ⟨1, 1, [200, 300]⟩
        ⟨1, 1, [0, 0]⟩ [0, 0]).2.getD (2 * (0 * 1 + 0)) 0 =
      ssat16 ((∑ k ∈ Finset.range 1,
        (([16384, 100] : List Int).getD (2 * (0 * 1 + k)) 0 *
            ([200, 300] : List Int).getD (2 * (k * 1 + 0)) 0 -
          ([16384, 100] : List Int).getD (2 * (0 * 1 + k) + 1) 0 *
            ([200, 300] : List Int).getD (2 * (k * 1 + 0) + 1) 0)) >>> 15) ∧
    (riscv_mat_cmplx_mult_q15 true false ⟨1, 1, [16384, 100]⟩ ⟨1, 1, [200, 300]⟩
        ⟨1, 1, [0, 0]⟩ [0, 0]).2.getD (2 * (0 * 1 + 0) + 1) 0 =
      ssat16 ((∑ k ∈ Finset.range 1,
        (([16384, 100] : List Int).getD (2 * (0 * 1 + k)) 0 *
            ([200, 300] : List Int).getD (2 * (k * 1 + 0) + 1) 0 +
          ([16384, 100] : List Int).getD (2 * (0 * 1 + k) + 1) 0 *
            ([200, 300] : List Int).getD (2 * (k * 1 + 0)) 0)) >>> 15) :=
  riscv_mat_cmplx_mult_q15_spec true false ⟨1, 1, [16384, 100]⟩ ⟨1, 1, [200, 300]⟩
    ⟨1, 1, [0, 0]⟩ [0, 0] rfl rfl rfl (by decide) (by decide)
    (fun hd => Bool.noConfusion hd) 0 0 (by decide) (by decide)

/-! ### `riscv_conv_opt_q15`
(src/sw/libs/CMSIS_lib/src/FilteringFunctions/riscv_conv_opt_q15.c)

The kernel (1) swaps the operands so the shorter sequence slides, (2) copies
the shorter sequence reversed into `pScratch2`, (3) stages
`pScratch1 = zeros(srcBLen-1) ++ longer ++ zeros(srcBLen-1)`, and (4) runs a
uniform-stride dot product: a 4-outputs-per-iteration block loop built from
`dotpv2` 2-lane dot products (the pointer/lane dance of the source is
mirrored accumulation by accumulation below), then a scalar leftover loop
for the remaining `(srcALen+srcBLen-1) % 4` outputs.  Each accumulator is a
64-bit `q63_t` stored as `__SSAT(acc >> 15, 16)`. -/

/-- Modelled from the spec (§4.3 Fill: `dst[n] = value`): `riscv_fill_q15`
from the library (not under src/), used to zero-pad `pScratch1`. -/
def riscv_fill_q15 (value : Int) (blockSize : Nat) : List Int :=
  List.replicate blockSize value

/-- Modelled from the spec (§1/§4.4): `riscv_copy_q15` from the library (not
under src/) copies `blockSize` samples. -/
def riscv_copy_q15 (src : List Int) : List Int := src

/-- The reversal copy loops (`*pScr2-- = *px++;`, 4-way unrolled plus
remainder in the source, the same per-element operation). -/
def conv_copy_rev : List Int → List Int → List Int
  | [], acc => acc
  | x :: xs, acc => conv_copy_rev xs (x :: acc)

/-- The 4-outputs inner tap loop (`tapCnt = srcBLen >> 2`): one iteration
performs the eight `dotpv2` accumulations of the source body, reading the
staged buffer `s` at offsets `p..p+7` and the reversed kernel `r` at
`q..q+3` (`VectInA/VectInB/VectInC/VectInC1/VectInD` become the
corresponding `getD` reads). -/
def conv_tap4 (s r : List Int) (p q t : Nat) (a0 a1 a2 a3 : Int) :
    Int × Int × Int × Int :=
  match t with
  | 0 => (a0, a1, a2, a3)
  | t + 1 =>
      let vC0 := r.getD q 0
      let vC1 := r.getD (q + 1) 0
      let vC10 := r.getD (q + 2) 0
      let vC11 := r.getD (q + 3) 0
      let a0 := a0 + dotpv2 (s.getD p 0) (s.getD (p + 1) 0) vC0 vC1
      let a2 := a2 + dotpv2 (s.getD (p + 2) 0) (s.getD (p + 3) 0) vC0 vC1
      let a1 := a1 + dotpv2 (s.getD (p + 1) 0) (s.getD (p + 2) 0) vC0 vC1
      let a0 := a0 + dotpv2 (s.getD (p + 2) 0) (s.getD (p + 3) 0) vC10 vC11
      let a2 := a2 + dotpv2 (s.getD (p + 4) 0) (s.getD (p + 5) 0) vC10 vC11
      let a3 := a3 + dotpv2 (s.getD (p + 3) 0) (s.getD (p + 4) 0) vC0 vC1
      let a1 := a1 + dotpv2 (s.getD (p + 3) 0) (s.getD (p + 4) 0) vC10 vC11
      let a3 := a3 + dotpv2 (s.getD (p + 5) 0) (s.getD (p + 6) 0) vC10 vC11
      conv_tap4 s r (p + 4) (q + 4) t a0 a1 a2 a3

/-- The remaining `srcBLen & 3` taps of a 4-output block (the scalar loop
with the `pScr1 -= 3` stride trick: each iteration advances one tap). -/
def conv_rem (s r : List Int) (p q t : Nat) (a0 a1 a2 a3 : Int) :
    Int × Int × Int × Int :=
  match t with
  | 0 => (a0, a1, a2, a3)
  | t + 1 =>
      conv_rem s r (p + 1) (q + 1) t
        (a0 + s.getD p 0 * r.getD q 0)
        (a1 + s.getD (p + 1) 0 * r.getD q 0)
        (a2 + s.getD (p + 2) 0 * r.getD q 0)
        (a3 + s.getD (p + 3) 0 * r.getD q 0)

/-- One iteration of the outer block loop: computes and stores outputs
`base..base+3` (`pack2(__SSAT(acc >> 15, 16), ...)` twice). -/
def conv_block (s r : List Int) (S base : Nat) : List Int :=
  let t := conv_tap4 s r base 0 (S / 4) 0 0 0 0
  let a := conv_rem s r (base + 4 * (S / 4)) (4 * (S / 4)) (S % 4) t.1 t.2.1 t.2.2.1 t.2.2.2
  [ssat16 (a.1 >>> 15), ssat16 (a.2.1 >>> 15), ssat16 (a.2.2.1 >>> 15),
    ssat16 (a.2.2.2 >>> 15)]

def conv_blocks (s r : List Int) (S base cnt : Nat) : List Int :=
  match cnt with
  | 0 => []
  | n + 1 => conv_block s r S base ++ conv_blocks s r S (base + 4) n

/-- The leftover loop's paired taps (`tapCnt = srcBLen >> 1`). -/
def conv_left_pair (s r : List Int) (p q t : Nat) (acc : Int) : Int :=
  match t with
  | 0 => acc
  | t + 1 =>
      conv_left_pair s r (p + 2) (q + 2) t
        (acc + s.getD p 0 * r.getD q 0 + s.getD (p + 1) 0 * r.getD (q + 1) 0)

/-- The leftover loop's odd tap (`tapCnt = srcBLen & 1`). -/
def conv_left_one (s r : List Int) (p q t : Nat) (acc : Int) : Int :=
  match t with
  | 0 => acc
  | t + 1 => conv_left_one s r (p + 1) (q + 1) t (acc + s.getD p 0 * r.getD q 0)

/-- The leftover output loop (`blkCnt = (srcALen + srcBLen - 1) & 3`). -/
def conv_left (s r : List Int) (S base cnt : Nat) : List Int :=
  match cnt with
  | 0 => []
  | n + 1 =>
      let acc := conv_left_one s r (base + 2 * (S / 2)) (2 * (S / 2)) (S % 2)
        (conv_left_pair s r base 0 (S / 2) 0)
      ssat16 (acc >>> 15) :: conv_left s r S (base + 1) n

def riscv_conv_opt_q15 (pSrcA pSrcB : List Int) : List Int :=
  let pIn1 := if pSrcB.length > pSrcA.length then pSrcB else pSrcA
  let pIn2 := if pSrcB.length > pSrcA.length then pSrcA else pSrcB
  let srcALen := pIn1.length
  let srcBLen := pIn2.length
  let pScratch2 := conv_copy_rev pIn2 []
  let pScratch1 := riscv_fill_q15 0 (srcBLen - 1) ++ riscv_copy_q15 pIn1 ++
    riscv_fill_q15 0 (srcBLen - 1)
  conv_blocks pScratch1 pScratch2 srcBLen 0 ((srcALen + srcBLen - 1) / 4) ++
    conv_left pScratch1 pScratch2 srcBLen (4 * ((srcALen + srcBLen - 1) / 4))
      ((srcALen + srcBLen - 1) % 4)

/-- The zero-padded linear-convolution reference value
`Σ_{k≤n} A[k] * B[n-k]`. -/
def convSum (A B : List Int) (n : Nat) : Int :=
  ∑ k ∈ Finset.range (n + 1), A.getD k 0 * B.getD (n - k) 0

theorem dotS_two (s r : List Int) (p q : Nat) :
    dotS s r p q 2 = s.getD p 0 * r.getD q 0 + s.getD (p + 1) 0 * r.getD (q + 1) 0 := by
  show dotS s r p q (0 + 1 + 1) = _
  simp [dotS]

theorem conv_tap4_eq (s r : List Int) :
    ∀ (t p q : Nat) (a0 a1 a2 a3 : Int),
      conv_tap4 s r p q t a0 a1 a2 a3 =
        (a0 + dotS s r p q (4 * t), a1 + dotS s r (p + 1) q (4 * t),
          a2 + dotS s r (p + 2) q (4 * t), a3 + dotS s r (p + 3) q (4 * t)) := by
  intro t
  induction t with
  | zero => intro p q a0 a1 a2 a3; simp [conv_tap4, dotS]
  | succ n ih =>
      intro p q a0 a1 a2 a3
      simp only [conv_tap4, dotpv2]
      rw [ih (p + 4) (q + 4)]
      rw [show 4 * (n + 1) = 4 + 4 * n from by ring]
      rw [dotS_add s r p q 4, dotS_add s r (p + 1) q 4, dotS_add s r (p + 2) q 4,
        dotS_add s r (p + 3) q 4]
      rw [show p + 4 + 1 = p + 1 + 4 from by omega, show p + 4 + 2 = p + 2 + 4 from by omega,
        show p + 4 + 3 = p + 3 + 4 from by omega]
      simp only [Prod.mk.injEq]
      refine ⟨?_, ?_, ?_, ?_⟩ <;> (rw [dotS_four]; ring)

theorem conv_rem_eq (s r : List Int) :
    ∀ (t p q : Nat) (a0 a1 a2 a3 : Int),
      conv_rem s r p q t a0 a1 a2 a3 =
        (a0 + dotS s r p q t, a1 + dotS s r (p + 1) q t,
          a2 + dotS s r (p + 2) q t, a3 + dotS s r (p + 3) q t) := by
  intro t
  induction t with
  | zero => intro p q a0 a1 a2 a3; simp [conv_rem, dotS]
  | succ n ih =>
      intro p q a0 a1 a2 a3
      simp only [conv_rem]
      rw [ih (p + 1) (q + 1)]
      rw [show n + 1 = 1 + n from by omega]
      rw [dotS_add s r p q 1, dotS_add s r (p + 1) q 1, dotS_add s r (p + 2) q 1,
        dotS_add s r (p + 3) q 1]
      rw [show p + 1 + 2 = p + 2 + 1 from by omega, show p + 1 + 3 = p + 3 + 1 from by omega]
      simp only [Prod.mk.injEq]
      refine ⟨?_, ?_, ?_, ?_⟩ <;> (rw [dotS_one]; ring)

theorem dotS_split4 (s r : List Int) (p S : Nat) :
    dotS s r p 0 S =
      dotS s r p 0 (4 * (S / 4)) + dotS s r (p + 4 * (S / 4)) (4 * (S / 4)) (S % 4) := by
  conv_lhs => rw [show S = 4 * (S / 4) + S % 4 from (Nat.div_add_mod S 4).symm]
  rw [dotS_add, Nat.zero_add]

theorem conv_block_eq (s r : List Int) (S base : Nat) :
    conv_block s r S base =
      [ssat16 (dotS s r base 0 S >>> 15), ssat16 (dotS s r (base + 1) 0 S >>> 15),
        ssat16 (dotS s r (base + 2) 0 S >>> 15), ssat16 (dotS s r (base + 3) 0 S >>> 15)] := by
  have hsplit : ∀ p : Nat, (0 : Int) + dotS s r p 0 (4 * (S / 4)) +
      dotS s r (p + 4 * (S / 4)) (4 * (S / 4)) (S % 4) = dotS s r p 0 S := by
    intro p
    rw [dotS_split4 s r p S]
    ring
  rw [conv_block, conv_tap4_eq]
  dsimp only
  rw [conv_rem_eq]
  dsimp only
  rw [show base + 4 * (S / 4) + 1 = base + 1 + 4 * (S / 4) from by omega,
    show base + 4 * (S / 4) + 2 = base + 2 + 4 * (S / 4) from by omega,
    show base + 4 * (S / 4) + 3 = base + 3 + 4 * (S / 4) from by omega]
  rw [hsplit base, hsplit (base + 1), hsplit (base + 2), hsplit (base + 3)]

theorem conv_blocks_length (s r : List Int) (S : Nat) :
    ∀ (cnt base : Nat), (conv_blocks s r S base cnt).length = 4 * cnt := by
  intro cnt
  induction cnt with
  | zero => intro base; rfl
  | succ n ih =>
      intro base
      rw [conv_blocks, List.length_append, conv_block_eq, ih]
      simp
      ring

theorem conv_blocks_getD (s r : List Int) (S : Nat) :
    ∀ (cnt base n : Nat), n < 4 * cnt →
      (conv_blocks s r S base cnt).getD n 0 = ssat16 (dotS s r (base + n) 0 S >>> 15) := by
  intro cnt
  induction cnt with
  | zero => intro base n hn; omega
  | succ m ih =>
      intro base n hn
      rw [conv_blocks]
      by_cases h4 : n < 4
      · rw [List.getD_append _ _ _ n (by rw [conv_block_eq]; simpa using h4)]
        rw [conv_block_eq]
        interval_cases n <;> simp
      · rw [List.getD_append_right _ _ _ _ (by rw [conv_block_eq]; simpa using by omega)]
        rw [conv_block_eq]
        simp only [List.length_cons, List.length_nil]
        rw [show n - (0 + 1 + 1 + 1 + 1) = n - 4 from by omega]
        rw [ih (base + 4) (n - 4) (by omega)]
        rw [show base + 4 + (n - 4) = base + n from by omega]

theorem conv_left_pair_eq (s r : List Int) :
    ∀ (t p q : Nat) (acc : Int),
      conv_left_pair s r p q t acc = acc + dotS s r p q (2 * t) := by
  intro t
  induction t with
  | zero => intro p q acc; simp [conv_left_pair, dotS]
  | succ n ih =>
      intro p q acc
      simp only [conv_left_pair]
      rw [ih (p + 2) (q + 2)]
      rw [show 2 * (n + 1) = 2 + 2 * n from by ring, dotS_add s r p q 2, dotS_two]
      ring

theorem conv_left_one_eq (s r : List Int) :
    ∀ (t p q : Nat) (acc : Int),
      conv_left_one s r p q t acc = acc + dotS s r p q t := by
  intro t
  induction t with
  | zero => intro p q acc; simp [conv_left_one, dotS]
  | succ n ih =>
      intro p q acc
      simp only [conv_left_one]
      rw [ih (p + 1) (q + 1)]
      rw [show n + 1 = 1 + n from by omega, dotS_add s r p q 1, dotS_one]
      ring

theorem dotS_split2 (s r : List Int) (p S : Nat) :
    dotS s r p 0 S =
      dotS s r p 0 (2 * (S / 2)) + dotS s r (p + 2 * (S / 2)) (2 * (S / 2)) (S % 2) := by
  conv_lhs => rw [show S = 2 * (S / 2) + S % 2 from (Nat.div_add_mod S 2).symm]
  rw [dotS_add, Nat.zero_add]

theorem conv_left_length (s r : List Int) (S : Nat) :
    ∀ (cnt base : Nat), (conv_left s r S base cnt).length = cnt := by
  intro cnt
  induction cnt with
  | zero => intro base; rfl
  | succ n ih => intro base; rw [conv_left, List.length_cons, ih]

theorem conv_left_getD (s r : List Int) (S : Nat) :
    ∀ (cnt base n : Nat), n < cnt →
      (conv_left s r S base cnt).getD n 0 = ssat16 (dotS s r (base + n) 0 S >>> 15) := by
  intro cnt
  induction cnt with
  | zero => intro base n hn; omega
  | succ m ih =>
      intro base n hn
      rw [conv_left]
      cases n with
      | zero =>
          rw [List.getD_cons_zero, conv_left_pair_eq, conv_left_one_eq]
          rw [show base + 0 = base from by omega]
          rw [dotS_split2 s r base S]
          ring_nf
      | succ n' =>
          rw [List.getD_cons_succ, ih (base + 1) n' (by omega),
            show base + 1 + n' = base + (n' + 1) from by omega]

theorem conv_copy_rev_eq : ∀ (l acc : List Int), conv_copy_rev l acc = l.reverse ++ acc := by
  intro l
  induction l with
  | nil => intro acc; simp [conv_copy_rev]
  | cons x xs ih =>
      intro acc
      rw [conv_copy_rev, ih, List.reverse_cons, List.append_assoc]
      rfl

theorem getD_replicate_zero (n j : Nat) : (List.replicate n (0 : Int)).getD j 0 = 0 := by
  rcases lt_or_ge j n with h | h
  · rw [List.getD_eq_getElem _ _ (by simpa using h)]
    simp
  · exact getD_eq_default_of_le _ _ _ (by simpa using h)

theorem getD_reverse (l : List Int) (j : Nat) (hj : j < l.length) :
    l.reverse.getD j 0 = l.getD (l.length - 1 - j) 0 := by
  rw [List.getD_eq_getElem _ _ (by simpa using hj),
    List.getD_eq_getElem _ _ (by omega), List.getElem_reverse]

theorem conv_scratch1_getD (in1 : List Int) (m t : Nat) :
    ((List.replicate m (0 : Int) ++ in1) ++ List.replicate m 0).getD t 0 =
      if t < m then 0 else in1.getD (t - m) 0 := by
  by_cases h1 : t < m
  · rw [if_pos h1, List.getD_append _ _ _ _ (by simp; omega),
      List.getD_append _ _ _ _ (by simpa using h1), getD_replicate_zero]
  · rw [if_neg h1]
    rcases lt_or_ge t (m + in1.length) with h2 | h2
    · rw [List.getD_append _ _ _ _ (by simp; omega),
        List.getD_append_right _ _ _ _ (by simp; omega)]
      simp
    · rw [List.getD_append_right _ _ _ _ (by simp; omega), getD_replicate_zero,
        getD_eq_default_of_le in1 (t - m) 0 (by omega)]

theorem convSum_comm (A B : List Int) (n : Nat) : convSum A B n = convSum B A n := by
  unfold convSum
  rw [← Finset.sum_range_reflect (fun k => B.getD k 0 * A.getD (n - k) 0) (n + 1)]
  refine Finset.sum_congr rfl fun k hk => ?_
  have hk' : k < n + 1 := Finset.mem_range.mp hk
  rw [show n + 1 - 1 - k = n - k from by omega, show n - (n - k) = k from by omega]
  ring

theorem conv_dot_eq (in1 in2 : List Int) (n : Nat) :
    dotS ((List.replicate (in2.length - 1) 0 ++ in1) ++ List.replicate (in2.length - 1) 0)
      in2.reverse n 0 in2.length = convSum in1 in2 n := by
  set s1 := (List.replicate (in2.length - 1) (0 : Int) ++ in1) ++
    List.replicate (in2.length - 1) 0 with hs1
  rw [dotS_eq_sum]
  have h1 : (∑ j ∈ Finset.range in2.length, s1.getD (n + j) 0 * in2.reverse.getD (0 + j) 0) =
      ∑ j ∈ Finset.range in2.length,
        s1.getD (n + (in2.length - 1 - (in2.length - 1 - j))) 0 *
          in2.getD (in2.length - 1 - j) 0 := by
    refine Finset.sum_congr rfl fun j hj => ?_
    have hj' : j < in2.length := Finset.mem_range.mp hj
    rw [Nat.zero_add, getD_reverse in2 j hj',
      show in2.length - 1 - (in2.length - 1 - j) = j from by omega]
  rw [h1, Finset.sum_range_reflect
    (fun i => s1.getD (n + (in2.length - 1 - i)) 0 * in2.getD i 0) in2.length]
  have h2 : (∑ i ∈ Finset.range in2.length,
      s1.getD (n + (in2.length - 1 - i)) 0 * in2.getD i 0) =
      ∑ i ∈ Finset.range in2.length,
        (if i ≤ n then in1.getD (n - i) 0 * in2.getD i 0 else 0) := by
    refine Finset.sum_congr rfl fun i hi => ?_
    have hi' : i < in2.length := Finset.mem_range.mp hi
    rw [hs1, conv_scratch1_getD]
    by_cases hin : i ≤ n
    · rw [if_neg (show ¬(n + (in2.length - 1 - i) < in2.length - 1) from by omega),
        if_pos hin, show n + (in2.length - 1 - i) - (in2.length - 1) = n - i from by omega]
    · rw [if_pos (by omega), if_neg hin, zero_mul]
  rw [h2]
  have hL : (∑ i ∈ Finset.range in2.length,
      if i ≤ n then in1.getD (n - i) 0 * in2.getD i 0 else 0) =
      ∑ i ∈ Finset.range (max in2.length (n + 1)),
        (if i ≤ n then in1.getD (n - i) 0 * in2.getD i 0 else 0) := by
    refine Finset.sum_subset (Finset.range_subset.mpr (le_max_left _ _)) ?_
    intro i hiM hiS
    have hge : in2.length ≤ i := by simpa using hiS
    by_cases hin : i ≤ n
    · rw [if_pos hin, getD_eq_default_of_le in2 i 0 hge, mul_zero]
    · rw [if_neg hin]
  have hR : convSum in1 in2 n =
      ∑ i ∈ Finset.range (max in2.length (n + 1)),
        (if i ≤ n then in1.getD (n - i) 0 * in2.getD i 0 else 0) := by
    unfold convSum
    rw [← Finset.sum_range_reflect (fun k => in1.getD k 0 * in2.getD (n - k) 0) (n + 1)]
    have h3 : (∑ j ∈ Finset.range (n + 1),
        in1.getD (n + 1 - 1 - j) 0 * in2.getD (n - (n + 1 - 1 - j)) 0) =
        ∑ j ∈ Finset.range (n + 1),
          (if j ≤ n then in1.getD (n - j) 0 * in2.getD j 0 else 0) := by
      refine Finset.sum_congr rfl fun j hj => ?_
      have hj' : j < n + 1 := Finset.mem_range.mp hj
      rw [show n + 1 - 1 - j = n - j from by omega, show n - (n - j) = j from by omega,
        if_pos (show j ≤ n from by omega)]
    rw [h3]
    refine Finset.sum_subset (Finset.range_subset.mpr (le_max_right _ _)) ?_
    intro i hiM hiN
    have hge : n + 1 ≤ i := by simpa using hiN
    rw [if_neg (by omega)]
  rw [hL, ← hR]

theorem riscv_conv_opt_unfold (A B : List Int) (h : ¬B.length > A.length) :
    riscv_conv_opt_q15 A B =
      conv_blocks ((List.replicate (B.length - 1) 0 ++ A) ++ List.replicate (B.length - 1) 0)
        B.reverse B.length 0 ((A.length + B.length - 1) / 4) ++
      conv_left ((List.replicate (B.length - 1) 0 ++ A) ++ List.replicate (B.length - 1) 0)
        B.reverse B.length (4 * ((A.length + B.length - 1) / 4))
        ((A.length + B.length - 1) % 4) := by
  simp only [riscv_conv_opt_q15, if_neg h, riscv_fill_q15, riscv_copy_q15, conv_copy_rev_eq,
    List.append_nil]

theorem riscv_conv_opt_unfold_swap (A B : List Int) (h : B.length > A.length) :
    riscv_conv_opt_q15 A B =
      conv_blocks ((List.replicate (A.length - 1) 0 ++ B) ++ List.replicate (A.length - 1) 0)
        A.reverse A.length 0 ((B.length + A.length - 1) / 4) ++
      conv_left ((List.replicate (A.length - 1) 0 ++ B) ++ List.replicate (A.length - 1) 0)
        A.reverse A.length (4 * ((B.length + A.length - 1) / 4))
        ((B.length + A.length - 1) % 4) := by
  simp only [riscv_conv_opt_q15, if_pos h, riscv_fill_q15, riscv_copy_q15, conv_copy_rev_eq,
    List.append_nil]

theorem conv_core_length (in1 in2 : List Int) :
    (conv_blocks ((List.replicate (in2.length - 1) 0 ++ in1) ++
        List.replicate (in2.length - 1) 0) in2.reverse in2.length 0
        ((in1.length + in2.length - 1) / 4) ++
      conv_left ((List.replicate (in2.length - 1) 0 ++ in1) ++
        List.replicate (in2.length - 1) 0) in2.reverse in2.length
        (4 * ((in1.length + in2.length - 1) / 4))
        ((in1.length + in2.length - 1) % 4)).length = in1.length + in2.length - 1 := by
  rw [List.length_append, conv_blocks_length, conv_left_length]
  exact Nat.div_add_mod _ 4

theorem conv_core_getD (in1 in2 : List Int) (n : Nat)
    (hn : n < in1.length + in2.length - 1) :
    (conv_blocks ((List.replicate (in2.length - 1) 0 ++ in1) ++
        List.replicate (in2.length - 1) 0) in2.reverse in2.length 0
        ((in1.length + in2.length - 1) / 4) ++
      conv_left ((List.replicate (in2.length - 1) 0 ++ in1) ++
        List.replicate (in2.length - 1) 0) in2.reverse in2.length
        (4 * ((in1.length + in2.length - 1) / 4))
        ((in1.length + in2.length - 1) % 4)).getD n 0 =
      ssat16 (convSum in1 in2 n >>> 15) := by
  by_cases h4 : n < 4 * ((in1.length + in2.length - 1) / 4)
  · rw [List.getD_append _ _ _ _ (by rw [conv_blocks_length]; exact h4)]
    rw [conv_blocks_getD _ _ _ _ _ _ h4, Nat.zero_add, conv_dot_eq]
  · rw [List.getD_append_right _ _ _ _ (by rw [conv_blocks_length]; omega)]
    rw [conv_blocks_length]
    rw [conv_left_getD _ _ _ _ _ _ (by
      have := Nat.div_add_mod (in1.length + in2.length - 1) 4
      omega)]
    rw [show 4 * ((in1.length + in2.length - 1) / 4) +
      (n - 4 * ((in1.length + in2.length - 1) / 4)) = n from by omega]
    rw [conv_dot_eq]

/-- Output length and per-sample value of `riscv_conv_opt_q15`: exactly
`lenA + lenB - 1` samples, sample `n` being
`__SSAT((Σ_k A[k]*B[n-k]) >> 15, 16)` (zero-padded convolution). -/
theorem conv_opt_spec (A B : List Int) :
    (riscv_conv_opt_q15 A B).length = A.length + B.length - 1 ∧
    ∀ n < A.length + B.length - 1,
      (riscv_conv_opt_q15 A B).getD n 0 = ssat16 (convSum A B n >>> 15) := by
  by_cases hsw : B.length > A.length
  · rw [riscv_conv_opt_unfold_swap A B hsw]
    constructor
    · rw [conv_core_length B A]
      omega
    · intro n hn
      rw [conv_core_getD B A n (by omega), convSum_comm B A]
  · rw [riscv_conv_opt_unfold A B hsw]
    exact ⟨conv_core_length A B, fun n hn => conv_core_getD A B n hn⟩

/-- Claim C1: for Q15 inputs of lengths ≥ 1, `riscv_conv_opt_q15` produces
exactly `lenA + lenB - 1` output samples, and sample `n` equals the
zero-padded linear-convolution sum `Σ_k A[k]*B[n-k]` accumulated exactly,
arithmetically right-shifted by 15 bits, then saturated to
`[-32768, 32767]`; in particular the pre-shift sums of
`conv([1,2,3],[1,1])` are `[1,3,5,3]` (see the witness). -/
theorem riscv_conv_opt_q15_spec (A B : List Int) (hA : 1 ≤ A.length) (hB : 1 ≤ B.length)
    (hAr : ∀ x ∈ A, -32768 ≤ x ∧ x ≤ 32767) (hBr : ∀ x ∈ B, -32768 ≤ x ∧ x ≤ 32767) :
    (riscv_conv_opt_q15 A B).length = A.length + B.length - 1 ∧
    ∀ n < A.length + B.length - 1,
      (riscv_conv_opt_q15 A B).getD n 0 = ssat16 (convSum A B n >>> 15) :=
  conv_opt_spec A B

/-- Witness for C1 at `conv([1,2,3],[1,1])`: 4 outputs, and the integer
convolution sums before the shift are `1,3,5,3`. -/
theorem riscv_conv_opt_q15_spec_witness :
    (riscv_conv_opt_q15 [1, 2, 3] [1, 1]).length = 4 ∧
    (riscv_conv_opt_q15 [1, 2, 3] [1, 1]).getD 2 0 =
      ssat16 (convSum [1, 2, 3] [1, 1] 2 >>> 15) ∧
    convSum [1, 2, 3] [1, 1] 0 = 1 ∧ convSum [1, 2, 3] [1, 1] 1 = 3 ∧
    convSum [1, 2, 3] [1, 1] 2 = 5 ∧ convSum [1, 2, 3] [1, 1] 3 = 3 :=
  ⟨(riscv_conv_opt_q15_spec [1, 2, 3] [1, 1] (by decide) (by decide) (by decide)
      (by decide)).1,
    (riscv_conv_opt_q15_spec [1, 2, 3] [1, 1] (by decide) (by decide) (by decide)
      (by decide)).2 2 (by decide),
    by decide, by decide, by decide, by decide⟩

/-- Claim C5: `riscv_conv_opt_q15` is commutative in its argument pair —
calling it with `(A, B)` yields exactly the same output vector, element for
element, as calling it with `(B, A)` (the code swaps the operands so the
shorter one always slides). -/
theorem riscv_conv_opt_q15_comm (A B : List Int) (hA : 1 ≤ A.length) (hB : 1 ≤ B.length) :
    riscv_conv_opt_q15 A B = riscv_conv_opt_q15 B A := by
  have h1 := conv_opt_spec A B
  have h2 := conv_opt_spec B A
  refine List.ext_getElem (by rw [h1.1, h2.1]; omega) ?_
  intro i hi1 hi2
  have hlen : i < A.length + B.length - 1 := by rw [h1.1] at hi1; exact hi1
  have e1 : (riscv_conv_opt_q15 A B)[i] = (riscv_conv_opt_q15 A B).getD i 0 :=
    (List.getD_eq_getElem _ _ hi1).symm
  have e2 : (riscv_conv_opt_q15 B A)[i] = (riscv_conv_opt_q15 B A).getD i 0 :=
    (List.getD_eq_getElem _ _ hi2).symm
  rw [e1, e2, h1.2 i hlen, h2.2 i (by omega), convSum_comm]

/-- Witness for C5 at a concrete pair of different lengths. -/
theorem riscv_conv_opt_q15_comm_witness :
    riscv_conv_opt_q15 [5, -3, 7] [2, 4] = riscv_conv_opt_q15 [2, 4] [5, -3, 7] :=
  riscv_conv_opt_q15_comm [5, -3, 7] [2, 4] (by decide) (by decide)
